import Mathlib

/-!
Verification of the cherrydesk file-organizer core: the tree model, the
scanner, the three organization strategies, the tree editor, the
diff/reconciler and the batch executor are embedded as pure Lean
functions translated from the TypeScript sources, and the behavioural
claims about them are proved below.

Modelling conventions, used throughout:
* JavaScript strings are Lean `String`s; string comparison
  (`<`, `localeCompare`, `Array.prototype.sort` on strings) is modelled
  as code-unit (here: scalar-value) lexicographic order via `lexLe`.
* Node's `path` module is modelled for absolute POSIX paths: a path is
  split on `/` and normalized (empty, `.` and `..` segments resolved);
  `path.join` and `path.resolve` are `pathJoin` and `pathResolve`.
* Filesystem effects are abstracted: the scanner runs against an
  explicit filesystem-shaped tree (`FS`), and the executor's per-move
  effects (mkdir + collision probing + rename) are abstracted into an
  outcome oracle, one outcome per executed operation.
* `JSON.parse(JSON.stringify(x))` deep cloning is the identity on the
  pure tree values, so `cloneTree`/`cloneNode` are modelled as `id`.
* `Math.random()`-derived virtual-directory suffixes are modelled by a
  caller-supplied suffix supply `sfx : Nat → String` consumed by an
  explicit counter, and `Date.now()` by an explicit `now` argument.
-/

/-- Lexicographic `≤` on character lists by scalar value; models the
JavaScript ordering of strings (code-unit order, which agrees with
scalar-value order on the ASCII names appearing in this program). -/
def lexLe : List Char → List Char → Bool
  | [], _ => true
  | _ :: _, [] => false
  | a :: as, b :: bs => if a = b then lexLe as bs else Nat.blt a.toNat b.toNat

/-- String `≤` in JavaScript comparison order. -/
def strLe (a b : String) : Bool :=
  lexLe a.data b.data

/-- Model of JavaScript `String.prototype.startsWith`. -/
def strStartsWith (s pre : String) : Bool :=
  pre.data.isPrefixOf s.data

/-- Model of JavaScript `String.prototype.endsWith`. -/
def strEndsWith (s suf : String) : Bool :=
  suf.data.isSuffixOf s.data

/-- Decimal digit to character. -/
def digitChar (d : Nat) : Char :=
  Char.ofNat (48 + d)

/-- Decimal representation of a natural number (fuel-based so that it
reduces structurally). -/
def natToStrAux : Nat → Nat → List Char
  | 0, _ => []
  | fuel + 1, n =>
    if n < 10 then [digitChar n]
    else natToStrAux fuel (n / 10) ++ [digitChar (n % 10)]

/-- Model of JavaScript `Number.prototype.toString` on naturals. -/
def natToStr (n : Nat) : String :=
  ⟨natToStrAux (n + 1) n⟩

/-- Model of JavaScript `Number.prototype.toString` on integers. -/
def intToStr : Int → String
  | .ofNat n => natToStr n
  | .negSucc n => "-" ++ natToStr (n + 1)

/-- Insertion step of the stable sort modelling `Array.prototype.sort`. -/
def insertLe {α : Type} (le : α → α → Bool) (x : α) : List α → List α
  | [] => [x]
  | y :: ys => if le x y then x :: y :: ys else y :: insertLe le x ys

/-- Stable comparison sort; models `Array.prototype.sort(cmp)` for a
total-preorder comparator `cmp` (ECMAScript sorts are stable). -/
def sortLe {α : Type} (le : α → α → Bool) : List α → List α
  | [] => []
  | x :: xs => insertLe le x (sortLe le xs)

/-- `Array.prototype.sort()` on strings (default comparator). -/
def sortStrs (l : List String) : List String :=
  sortLe strLe l

/-- Split a character list on `/` (every separator splits; adjacent
separators produce empty segments, as in Node's path parsing). -/
def splitSlash : List Char → List (List Char)
  | [] => [[]]
  | c :: cs =>
    if c = '/' then [] :: splitSlash cs
    else
      match splitSlash cs with
      | s :: rest => (c :: s) :: rest
      | [] => [[c]]

/-- One step of `path.resolve` normalization: an empty or `.` segment
is dropped, `..` pops the previous segment (or is dropped at the
root), anything else is kept. -/
def normStep (acc : List (List Char)) (s : List Char) : List (List Char) :=
  if s = [] ∨ s = ['.'] then acc
  else if s = ['.', '.'] then acc.dropLast
  else acc ++ [s]

/-- Normalize a segment list as `path.resolve` does for an absolute
path. -/
def normSegs (segs : List (List Char)) : List (List Char) :=
  segs.foldl normStep []

/-- Render segments with `/` separators (no leading slash). -/
def segsToChars : List (List Char) → List Char
  | [] => []
  | [s] => s
  | s :: rest => s ++ '/' :: segsToChars rest

/-- The absolute path whose segments are `segs`. -/
def absPath (segs : List (List Char)) : String :=
  ⟨'/' :: segsToChars segs⟩

/-- Model of Node `path.resolve` on one absolute POSIX path: split on
`/`, resolve `.`/`..`/empty segments, re-render. (The program only ever
resolves absolute paths, so the working-directory case never arises.) -/
def pathResolve (p : String) : String :=
  absPath (normSegs (splitSlash p.data))

/-- Model of Node `path.join a b` for an absolute `a`: concatenate with
a separator and normalize. -/
def pathJoin (a b : String) : String :=
  pathResolve (a ++ "/" ++ b)

/-- Drop trailing `/` characters. -/
def dropTrailingSlashes (cs : List Char) : List Char :=
  (cs.reverse.dropWhile (fun c => c = '/')).reverse

/-- Model of Node `path.basename`: trailing slashes are dropped, then
everything after the last remaining `/` is kept. -/
def baseName (p : String) : String :=
  ⟨((dropTrailingSlashes p.data).reverse.takeWhile (fun c => c ≠ '/')).reverse⟩

/-- The `'file' | 'directory'` union of the TypeScript `FileNode.type`. -/
inductive NodeType where
  | file
  | directory
deriving DecidableEq, Repr

/-- The shared tree model (`src/common/types.ts`): `path` is the
absolute path (for virtual directories a `virtual://` key), `name` the
base name, `size` bytes, `mtime` a millisecond timestamp, and
`children` is present exactly when the TypeScript object carries a
`children` array (`some []` and `none` are distinct, as in JS). -/
inductive FileNode : Type where
  | mk (path name : String) (ntype : NodeType) (size : Nat) (mtime : Int)
      (children : Option (List FileNode))

mutual
def beqNode : FileNode → FileNode → Bool
  | .mk p1 n1 t1 s1 m1 c1, .mk p2 n2 t2 s2 m2 c2 =>
    decide (p1 = p2) && decide (n1 = n2) && decide (t1 = t2) &&
      decide (s1 = s2) && decide (m1 = m2) && beqChildren c1 c2

def beqChildren : Option (List FileNode) → Option (List FileNode) → Bool
  | none, none => true
  | some l1, some l2 => beqList l1 l2
  | _, _ => false

def beqList : List FileNode → List FileNode → Bool
  | [], [] => true
  | x :: xs, y :: ys => beqNode x y && beqList xs ys
  | _, _ => false
end

mutual
theorem beqNode_iff : ∀ a b : FileNode, beqNode a b = true ↔ a = b
  | .mk p1 n1 t1 s1 m1 c1, .mk p2 n2 t2 s2 m2 c2 => by
    simp only [beqNode, Bool.and_eq_true, decide_eq_true_eq, FileNode.mk.injEq]
    constructor
    · rintro ⟨⟨⟨⟨⟨h1, h2⟩, h3⟩, h4⟩, h5⟩, h6⟩
      exact ⟨h1, h2, h3, h4, h5, (beqChildren_iff c1 c2).1 h6⟩
    · rintro ⟨h1, h2, h3, h4, h5, h6⟩
      exact ⟨⟨⟨⟨⟨h1, h2⟩, h3⟩, h4⟩, h5⟩, (beqChildren_iff c1 c2).2 h6⟩

theorem beqChildren_iff : ∀ a b : Option (List FileNode), beqChildren a b = true ↔ a = b
  | none, none => by simp [beqChildren]
  | none, some l2 => by simp [beqChildren]
  | some l1, none => by simp [beqChildren]
  | some l1, some l2 => by
    simp only [beqChildren, Option.some.injEq]
    exact beqList_iff l1 l2

theorem beqList_iff : ∀ a b : List FileNode, beqList a b = true ↔ a = b
  | [], [] => by simp [beqList]
  | [], _ :: _ => by simp [beqList]
  | _ :: _, [] => by simp [beqList]
  | x :: xs, y :: ys => by
    simp only [beqList, Bool.and_eq_true, List.cons.injEq]
    exact and_congr (beqNode_iff x y) (beqList_iff xs ys)
end

instance : DecidableEq FileNode := fun a b =>
  decidable_of_iff (beqNode a b = true) (beqNode_iff a b)

def FileNode.path : FileNode → String
  | .mk p _ _ _ _ _ => p

def FileNode.name : FileNode → String
  | .mk _ n _ _ _ _ => n

def FileNode.ntype : FileNode → NodeType
  | .mk _ _ t _ _ _ => t

def FileNode.size : FileNode → Nat
  | .mk _ _ _ s _ _ => s

def FileNode.mtime : FileNode → Int
  | .mk _ _ _ _ m _ => m

def FileNode.children : FileNode → Option (List FileNode)
  | .mk _ _ _ _ _ c => c

/-- The children list with JS `node.children ?? []` defaulting. -/
def FileNode.childrenD (n : FileNode) : List FileNode :=
  n.children.getD []

/-- `ScanResult` of `src/common/types.ts`. -/
structure ScanResult where
  root : FileNode
  fileCount : Nat
  totalSize : Nat
deriving DecidableEq

/-- The `'move'` literal type of `FileOperation.type`. -/
inductive OpType where
  | move
deriving DecidableEq, Repr

/-- `FileOperation` of `src/main/utils/diff.ts`. -/
structure FileOperation where
  optype : OpType
  source : String
  destination : String
deriving DecidableEq, Repr

/-- Deep clone via JSON round-trip (`cloneTree` / `cloneNode` in the
sources); on the pure tree values this is the identity. -/
def cloneTree (n : FileNode) : FileNode := n

mutual
/-- `flattenFiles` (`src/main/strategies/utils.ts` and
`treeHelpers.ts`): a file node yields itself; a directory yields the
flattening of its children, if any. -/
def flattenFiles : FileNode → List FileNode
  | .mk p na t s m c =>
    match t with
    | .file => [.mk p na .file s m c]
    | .directory =>
      match c with
      | some cs => flattenList cs
      | none => []

def flattenList : List FileNode → List FileNode
  | [] => []
  | x :: xs => flattenFiles x ++ flattenList xs
end

mutual
/-- `countFiles` (`treeHelpers.ts`): number of file-kind nodes. -/
def countFiles : FileNode → Nat
  | .mk _ _ t _ _ c =>
    match t with
    | .file => 1
    | .directory =>
      match c with
      | some cs => countList cs
      | none => 0

def countList : List FileNode → Nat
  | [] => 0
  | x :: xs => countFiles x + countList xs
end

/-- `createDirectory` (`src/main/strategies/utils.ts`): a virtual
directory node whose path is `virtual://<name>-<suffix>`; `suffix`
stands for the `Math.random()` suffix and `now` for `Date.now()`. -/
def createDirectory (suffix : String) (now : Int) (name : String)
    (children : List FileNode) : FileNode :=
  .mk ("virtual://" ++ name ++ "-" ++ suffix) name .directory
    (children.foldl (fun acc c => acc + c.size) 0) now (some children)

mutual
/-- The recursive `traverse` of `calculateDiff`
(`src/main/utils/diff.ts`): a file node emits one move operation when
its resolved original path differs from the resolved destination; a
directory node extends the destination directory and recurses. -/
def diffTraverse : FileNode → String → List FileOperation
  | .mk p na t s m c, currentPath =>
    match t with
    | .file =>
      let destination := pathJoin currentPath na
      if pathResolve p ≠ pathResolve destination then
        [⟨.move, p, destination⟩]
      else []
    | .directory =>
      match c with
      | some cs => diffTraverseList cs (pathJoin currentPath na)
      | none => []

def diffTraverseList : List FileNode → String → List FileOperation
  | [], _ => []
  | x :: xs, currentPath => diffTraverse x currentPath ++ diffTraverseList xs currentPath
end

/-- `calculateDiff` (`src/main/utils/diff.ts`): traverse the children
of the working-tree root against the original root path. -/
def calculateDiff (rootPath : String) (workingTreeRoot : FileNode) : List FileOperation :=
  match workingTreeRoot.children with
  | some cs => diffTraverseList cs rootPath
  | none => []

/-- `ExecutionResult` (`src/main/executor.ts`). -/
structure ExecutionResult where
  success : Bool
  processed : Nat
  errors : List String
deriving DecidableEq, Repr

/-- One `{source, destination}` record of a batch log. -/
structure LoggedOp where
  source : String
  destination : String
deriving DecidableEq, Repr

/-- `LogEntry` (`src/main/executor.ts`). -/
structure LogEntry where
  timestamp : Int
  operations : List LoggedOp
deriving DecidableEq, Repr

/-- Abstract outcome of one attempted move: the combined effect of
`fs.mkdir(dirname(dest))`, the `getUniquePath` collision probing and
`fs.rename`. `ok d` means the move succeeded with actual destination
`d` (the collision-renamed path); `err m` means some step threw with
message `m`. -/
inductive MoveOutcome where
  | ok (actualDest : String)
  | err (msg : String)

/-- The `for (const op of operations)` loop body of
`BatchExecutor.execute`, with the filesystem abstracted into `outcome`
(indexed by the position of the operation in the input list). -/
def execLoop (outcome : Nat → MoveOutcome) :
    List FileOperation → Nat → List LoggedOp → List String →
    List LoggedOp × List String
  | [], _, executed, errors => (executed, errors)
  | op :: rest, i, executed, errors =>
    match op.optype with
    | .move =>
      match outcome i with
      | .ok d => execLoop outcome rest (i + 1) (executed ++ [⟨op.source, d⟩]) errors
      | .err m =>
        execLoop outcome rest (i + 1) executed
          (errors ++ ["Failed to move " ++ op.source ++ ": " ++ m])

/-- `BatchExecutor.execute` (`src/main/executor.ts`): run every
operation, collecting executed moves and error strings; persist a log
entry when at least one move succeeded. Returns the `ExecutionResult`
and the written log entry (if any). -/
def executeBatch (outcome : Nat → MoveOutcome) (logId : Int)
    (operations : List FileOperation) : ExecutionResult × Option LogEntry :=
  let r := execLoop outcome operations 0 [] []
  let log : Option LogEntry :=
    if r.1.length > 0 then some ⟨logId, r.1⟩ else none
  (⟨r.2.isEmpty, r.1.length, r.2⟩, log)

/-- Specification-level list of the successfully executed moves, in
input order, each recorded with its actual destination. -/
def executedMoves (outcome : Nat → MoveOutcome) : Nat → List FileOperation → List LoggedOp
  | _, [] => []
  | i, op :: rest =>
    match outcome i with
    | .ok d => ⟨op.source, d⟩ :: executedMoves outcome (i + 1) rest
    | .err _ => executedMoves outcome (i + 1) rest

/-- Specification-level list of error strings: one per failing
operation, in input order, each carrying the source path. -/
def moveErrors (outcome : Nat → MoveOutcome) : Nat → List FileOperation → List String
  | _, [] => []
  | i, op :: rest =>
    match outcome i with
    | .ok _ => moveErrors outcome (i + 1) rest
    | .err m => ("Failed to move " ++ op.source ++ ": " ++ m) :: moveErrors outcome (i + 1) rest

/-- The log filename filter of `undoLastBatch`:
`f.startsWith('batch-') && f.endsWith('.json')`. -/
def isBatchLog (f : String) : Bool :=
  strStartsWith f "batch-" && strEndsWith f ".json"

/-- The reverse-replay loop of `undoLastBatch`, filesystem abstracted
into `outcome` (`none` = the mkdir+rename pair succeeded, `some m` =
it threw with message `m`). -/
def undoLoop (outcome : Nat → Option String) :
    List LoggedOp → Nat → List LoggedOp × List String → List LoggedOp × List String
  | [], _, acc => acc
  | op :: rest, i, acc =>
    match outcome i with
    | none => undoLoop outcome rest (i + 1) (acc.1 ++ [⟨op.destination, op.source⟩], acc.2)
    | some m =>
      undoLoop outcome rest (i + 1)
        (acc.1, acc.2 ++ ["Failed to revert " ++ op.destination ++ ": " ++ m])

/-- `BatchExecutor.undoLastBatch` (`src/main/executor.ts`): pick the
lexicographically greatest `batch-*.json` filename from the log
directory listing `files`, read it with `readLog`, replay its
operations reversed (destination back to source), and delete the log
file exactly when no error occurred. Returns the result and the
deleted filename (if any). -/
def undoLastBatch (files : List String) (readLog : String → LogEntry)
    (outcome : Nat → Option String) : ExecutionResult × Option String :=
  let logs := (sortStrs (files.filter isBatchLog)).reverse
  match logs with
  | [] => (⟨false, 0, ["No undo history found"]⟩, none)
  | sel :: _ =>
    let log := readLog sel
    let r := undoLoop outcome log.operations.reverse 0 ([], [])
    let deleted := if r.2.isEmpty then some sel else none
    (⟨r.2.isEmpty, r.1.length, r.2⟩, deleted)

/-- Specification-level list of successful revert moves (logged
destination moved back to logged source), in replay order. -/
def revertedMoves (outcome : Nat → Option String) : Nat → List LoggedOp → List LoggedOp
  | _, [] => []
  | i, op :: rest =>
    match outcome i with
    | none => ⟨op.destination, op.source⟩ :: revertedMoves outcome (i + 1) rest
    | some _ => revertedMoves outcome (i + 1) rest

/-- Specification-level list of revert error strings. -/
def revertErrors (outcome : Nat → Option String) : Nat → List LoggedOp → List String
  | _, [] => []
  | i, op :: rest =>
    match outcome i with
    | none => revertErrors outcome (i + 1) rest
    | some m => ("Failed to revert " ++ op.destination ++ ": " ++ m) :: revertErrors outcome (i + 1) rest

mutual
/-- One step of `findNode` (`src/renderer/utils/treeUtils.ts`) on a
single node: the node itself if its path matches, otherwise a search
of its children. -/
def findNodeOne : FileNode → String → Option FileNode
  | .mk pa na t sz mt c, p =>
    if pa = p then some (.mk pa na t sz mt c)
    else
      match c with
      | some cs => findNode cs p
      | none => none

/-- `findNode` (`src/renderer/utils/treeUtils.ts`): first node with
the given path in a pre-order search. -/
def findNode : List FileNode → String → Option FileNode
  | [], _ => none
  | n :: rest, p =>
    match findNodeOne n p with
    | some found => some found
    | none => findNode rest p
end

mutual
/-- The child-recursion step of `removeNode` on one surviving node. -/
def removeNodeOne : FileNode → String → FileNode
  | .mk pa na t sz mt c, p =>
    .mk pa na t sz mt
      (match c with
       | some cs => some (removeNode cs p)
       | none => none)

/-- `removeNode` (`src/renderer/utils/treeUtils.ts`): drop every node
whose path matches, recursing into the children of surviving nodes. -/
def removeNode : List FileNode → String → List FileNode
  | [], _ => []
  | n :: rest, p =>
    if n.path = p then removeNode rest p
    else removeNodeOne n p :: removeNode rest p
end

mutual
/-- One step of `addNodeToTarget` on a single node: append to this
node when its path matches the target, otherwise recurse into its
children. -/
def addNodeOne : FileNode → String → FileNode → FileNode
  | .mk pa na t sz mt c, targetPath, nodeToAdd =>
    if pa = targetPath then .mk pa na t sz mt (some (c.getD [] ++ [nodeToAdd]))
    else
      .mk pa na t sz mt
        (match c with
         | some cs => some (addNodeToTarget cs targetPath nodeToAdd)
         | none => none)

/-- `addNodeToTarget` (`src/renderer/utils/treeUtils.ts`): append
`nodeToAdd` as last child of every node whose path equals the target
path (no type check), recursing into children elsewhere. -/
def addNodeToTarget : List FileNode → String → FileNode → List FileNode
  | [], _, _ => []
  | n :: rest, targetPath, nodeToAdd =>
    addNodeOne n targetPath nodeToAdd :: addNodeToTarget rest targetPath nodeToAdd
end

/-- `moveFileInTree` (`src/renderer/utils/treeUtils.ts`): find the
source node, remove it everywhere, then append it to the target. The
`JSON`-round-trip deep clone is the identity here, and the input list
is never mutated in the pure embedding. -/
def moveFileInTree (roots : List FileNode) (sourcePath targetPath : String) : List FileNode :=
  match findNode roots sourcePath with
  | none => roots
  | some nodeToMove => addNodeToTarget (removeNode roots sourcePath) targetPath nodeToMove

/-- Proleptic-Gregorian civil date from days since the Unix epoch
(Howard Hinnant's `civil_from_days`); models what JavaScript
`Date.prototype.getFullYear` / `getMonth` compute for a UTC-offset-zero
environment. -/
def civilOfDays (z : Int) : Int × Nat × Nat :=
  let z2 := z + 719468
  let era := z2.fdiv 146097
  let doe := (z2 - era * 146097).toNat
  let yoe := (doe - doe / 1460 + doe / 36524 - doe / 146096) / 365
  let y := era * 400 + yoe
  let doy := doe - (365 * yoe + yoe / 4 - yoe / 100)
  let mp := (5 * doy + 2) / 153
  let d := doy - (153 * mp + 2) / 5 + 1
  let m := if mp < 10 then mp + 3 else mp - 9
  (y + (if m ≤ 2 then 1 else 0), m, d)

/-- Days since epoch of a millisecond timestamp (floor division). -/
def msToDays (ms : Int) : Int :=
  ms.fdiv 86400000

/-- `new Date(ms).getFullYear()` in a UTC environment. -/
def yearOf (ms : Int) : Int :=
  (civilOfDays (msToDays ms)).1

/-- `new Date(ms).getMonth() + 1` in a UTC environment (1-12). -/
def monthOf (ms : Int) : Nat :=
  (civilOfDays (msToDays ms)).2.1

/-- The year key string of the Time strategy. -/
def yearStr (ms : Int) : String :=
  intToStr (yearOf ms)

/-- The zero-padded month key string of the Time strategy
(`(getMonth()+1).toString().padStart(2, '0')`). -/
def monthStr (ms : Int) : String :=
  let m := monthOf ms
  if m < 10 then "0" ++ natToStr m else natToStr m

/-- The `year -> month -> files` record of the Time strategy, as an
insertion-ordered association structure with unique keys (the final
output only depends on the key sets, which are sorted afterwards). -/
abbrev MonthGroups := List (String × List FileNode)

abbrev YearGroups := List (String × MonthGroups)

/-- `groups[year][month].push(file)` with on-demand creation of the
month bucket. -/
def addMonth : MonthGroups → String → FileNode → MonthGroups
  | [], m, f => [(m, [f])]
  | (k, fs) :: rest, m, f =>
    if k = m then (k, fs ++ [f]) :: rest else (k, fs) :: addMonth rest m f

/-- `groups[year][month].push(file)` with on-demand creation of the
year and month buckets. -/
def addYear : YearGroups → String → String → FileNode → YearGroups
  | [], y, m, f => [(y, [(m, [f])])]
  | (k, ms) :: rest, y, m, f =>
    if k = y then (k, addMonth ms m f) :: rest else (k, ms) :: addYear rest y m f

/-- The grouping loop of `TimeStrategy.apply`. -/
def timeGroups (files : List FileNode) : YearGroups :=
  files.foldl (fun g f => addYear g (yearStr f.mtime) (monthStr f.mtime) (cloneTree f)) []

/-- `groups[year]` lookup. -/
def lookupYear (g : YearGroups) (y : String) : MonthGroups :=
  match g.find? (fun e => e.1 == y) with
  | some e => e.2
  | none => []

/-- `groups[year][month]` lookup. -/
def lookupMonth (ms : MonthGroups) (m : String) : List FileNode :=
  match ms.find? (fun e => e.1 == m) with
  | some e => e.2
  | none => []

/-- The inner `for (const month of sortedMonths)` loop of
`TimeStrategy.apply`, threading the virtual-path counter. -/
def buildMonthNodes (sfx : Nat → String) (now : Int) (ms : MonthGroups) :
    Nat → List String → List FileNode × Nat
  | k, [] => ([], k)
  | k, m :: rest =>
    let node := createDirectory (sfx k) now m (lookupMonth ms m)
    let r := buildMonthNodes sfx now ms (k + 1) rest
    (node :: r.1, r.2)

/-- The outer `for (const year of sortedYears)` loop of
`TimeStrategy.apply`. -/
def buildYearNodes (sfx : Nat → String) (now : Int) (g : YearGroups) :
    Nat → List String → List FileNode × Nat
  | k, [] => ([], k)
  | k, y :: ys =>
    let ms := lookupYear g y
    let sortedMonths := (sortStrs (ms.map (fun e => e.1))).reverse
    let mr := buildMonthNodes sfx now ms k sortedMonths
    let ynode := createDirectory (sfx mr.2) now y mr.1
    let r := buildYearNodes sfx now g (mr.2 + 1) ys
    (ynode :: r.1, r.2)

/-- `TimeStrategy.apply` (`src/main/strategies/time.ts`): flatten the
file descendants, group by year and zero-padded month of `mtime`, and
emit `year/month/file` with years and months sorted descending; the
root keeps all its own fields (the spread of `cloneTree(root)`) with
the new children. -/
def applyTime (sfx : Nat → String) (now : Int) (root : FileNode) : FileNode :=
  let files := flattenFiles root
  let groups := timeGroups files
  let sortedYears := (sortStrs (groups.map (fun e => e.1))).reverse
  let b := buildYearNodes sfx now groups 0 sortedYears
  .mk root.path root.name root.ntype root.size root.mtime (some b.1)

/-- ASCII lowercase of a character (`String.prototype.toLowerCase` on
the ASCII extensions this program matches). -/
def charToLower (c : Char) : Char :=
  if 'A' ≤ c ∧ c ≤ 'Z' then Char.ofNat (c.toNat + 32) else c

/-- ASCII `toLowerCase`. -/
def toLowerStr (s : String) : String :=
  ⟨s.data.map charToLower⟩

/-- Model of Node `path.extname` for ordinary filenames: the suffix
from the last `.` of the base name, empty when there is no dot or the
only dot is leading. -/
def extName (p : String) : String :=
  let b := (baseName p).data
  let afterDot := (b.reverse.takeWhile (fun c => c ≠ '.')).reverse
  if afterDot.length = b.length then ""
  else if b.length = afterDot.length + 1 ∧ b.take 1 = ['.'] then ""
  else ⟨'.' :: afterDot⟩

/-- The fixed `TYPE_MAPPING` category table of the Type strategy. -/
def TYPE_MAPPING : List (String × List String) :=
  [ ("Images", [".jpg", ".jpeg", ".png", ".gif", ".bmp", ".webp", ".svg"]),
    ("Documents", [".pdf", ".doc", ".docx", ".txt", ".md", ".xls", ".xlsx", ".ppt", ".pptx"]),
    ("Audio", [".mp3", ".wav", ".ogg", ".m4a", ".flac"]),
    ("Video", [".mp4", ".mkv", ".mov", ".avi", ".webm"]),
    ("Code", [".js", ".ts", ".jsx", ".tsx", ".html", ".css", ".json", ".py", ".java", ".c", ".cpp", ".go", ".rs"]),
    ("Archives", [".zip", ".rar", ".7z", ".tar", ".gz"]) ]

/-- `getCategory` (`src/main/strategies/type.ts`). -/
def getCategory (filename : String) : String :=
  let ext := toLowerStr (extName filename)
  match TYPE_MAPPING.find? (fun e => e.2.contains ext) with
  | some e => e.1
  | none => "Others"

/-- `groups[category].push(file)` with on-demand creation. -/
def addCat : List (String × List FileNode) → String → FileNode → List (String × List FileNode)
  | [], cat, f => [(cat, [f])]
  | (k, fs) :: rest, cat, f =>
    if k = cat then (k, fs ++ [f]) :: rest else (k, fs) :: addCat rest cat f

/-- First index of an element in a list (`Array.prototype.indexOf`,
`-1` becomes `none`). -/
def idxOf : List String → String → Option Nat
  | [], _ => none
  | x :: xs, a =>
    if x = a then some 0
    else
      match idxOf xs a with
      | some i => some (i + 1)
      | none => none

/-- The fixed preferred category order of `TypeStrategy.apply`. -/
def CAT_ORDER : List String :=
  ["Images", "Documents", "Video", "Audio", "Code", "Archives", "Others"]

/-- The category comparator of `TypeStrategy.apply` as a `≤` test:
known categories by table position, known before unknown, unknown
alphabetical. -/
def catLe (a b : String) : Bool :=
  match idxOf CAT_ORDER a, idxOf CAT_ORDER b with
  | some i, some j => decide (i ≤ j)
  | some _, none => true
  | none, some _ => false
  | none, none => strLe a b

/-- The category-directory emission loop of `TypeStrategy.apply`. -/
def buildCatNodes (sfx : Nat → String) (now : Int) (groups : List (String × List FileNode)) :
    Nat → List String → List FileNode × Nat
  | k, [] => ([], k)
  | k, cat :: rest =>
    let node := createDirectory (sfx k) now cat (lookupMonth groups cat)
    let r := buildCatNodes sfx now groups (k + 1) rest
    (node :: r.1, r.2)

/-- `TypeStrategy.apply` (`src/main/strategies/type.ts`). -/
def applyType (sfx : Nat → String) (now : Int) (root : FileNode) : FileNode :=
  let files := flattenFiles root
  let groups := files.foldl (fun g f => addCat g (getCategory f.name) (cloneTree f)) []
  let existingCategories := sortLe catLe (groups.map (fun e => e.1))
  let b := buildCatNodes sfx now groups 0 existingCategories
  .mk root.path root.name root.ntype root.size root.mtime (some b.1)

/-- The `new Map(files.map(f => [f.name, f]))` lookup: the last file
with a given name wins, as later `Map.set` calls overwrite. -/
def fileMapGet (files : List FileNode) (name : String) : Option FileNode :=
  (files.filter (fun f => f.name == name)).getLast?

/-- The bucket-construction loop of `TopicStrategy.apply` over the
parsed `Object.entries(mapping)`: per topic, keep the exact-name
matches (clones of the mapped input files), record their names as
handled, and emit a directory only when non-empty. Returns the bucket
directories, the handled-name set (as a list), and the next counter. -/
def buildTopics (sfx : Nat → String) (now : Int) (files : List FileNode) :
    List (String × List String) → Nat → List String →
    List FileNode × List String × Nat
  | [], k, handled => ([], handled, k)
  | (topic, names) :: rest, k, handled =>
    let nodes := names.filterMap (fun n => (fileMapGet files n).map cloneTree)
    let handled2 := handled ++ names.filter (fun n => (fileMapGet files n).isSome)
    if nodes.isEmpty then buildTopics sfx now files rest k handled2
    else
      let dir := createDirectory (sfx k) now topic nodes
      let r := buildTopics sfx now files rest (k + 1) handled2
      (dir :: r.1, r.2)

/-- `TopicStrategy.apply` (`src/main/strategies/topic.ts`), from the
point where the classifier reply has been parsed into
`mapping : topic -> exact filenames` (the HTTP call and JSON parsing
are external); unmatched mapped names are dropped, never-handled input
files fall into a trailing `Uncategorized` bucket. -/
def applyTopic (sfx : Nat → String) (now : Int) (mapping : List (String × List String))
    (root : FileNode) : FileNode :=
  let files := flattenFiles root
  let b := buildTopics sfx now files mapping 0 []
  let handled := b.2.1
  let leftovers := files.filter (fun f => !(handled.contains f.name))
  let newChildren :=
    b.1 ++
      (if leftovers.isEmpty then []
       else [createDirectory (sfx b.2.2) now "Uncategorized" (leftovers.map cloneTree)])
  .mk root.path root.name root.ntype root.size root.mtime (some newChildren)

/-- Abstract filesystem tree against which the scanner runs: a node is
a regular file, a listable directory with named entries, a directory
whose `readdir` throws, a non-file non-directory entry (symlink,
socket, device), or a path whose `stat` throws. -/
inductive FS where
  | file (size : Nat) (mtime : Int)
  | dir (entries : List (String × FS)) (mtime : Int)
  | unlistable (mtime : Int)
  | special (mtime : Int)
  | inaccessible

/-- Whether `fs.stat` succeeds on the entry. -/
def statOk : FS → Bool
  | .inaccessible => false
  | _ => true

/-- The children comparator of `scanNode`: directories first, then
`localeCompare` on names (modelled as code-unit order). -/
def nodeLe (a b : FileNode) : Bool :=
  if a.ntype = b.ntype then strLe a.name b.name else decide (a.ntype = .directory)

mutual
/-- `scanNode` (`src/main/scanner.ts`): build the `FileNode` for one
path, returning `none` (subtree dropped) when `stat` fails, the
directory listing fails, or the entry is neither file nor directory;
directory children are scanned per entry, survivors sorted
directories-first then by name, and counts/sizes summed. -/
def scanNode (p : String) : FS → Option (FileNode × Nat × Nat)
  | .inaccessible => none
  | .special _ => none
  | .unlistable _ => none
  | .file sz mt => some (.mk p (baseName p) .file sz mt none, 1, sz)
  | .dir entries mt =>
    let r := scanEntries p entries
    some (.mk p (baseName p) .directory r.2.2 mt (some (sortLe nodeLe r.1)), r.2.1, r.2.2)

/-- Scan the entries of a directory, dropping the ones whose scan
fails, and accumulate the surviving children, file count, and size. -/
def scanEntries (p : String) : List (String × FS) → List FileNode × Nat × Nat
  | [] => ([], 0, 0)
  | (name, sub) :: rest =>
    let r := scanEntries p rest
    match scanNode (pathJoin p name) sub with
    | some (node, cnt, sz) => (node :: r.1, cnt + r.2.1, sz + r.2.2)
    | none => r
end

/-- `scanDirectory` (`src/main/scanner.ts`): a hard error exactly when
the root scan yields nothing. -/
def scanDirectory (dirPath : String) (fs : FS) : Except String ScanResult :=
  match scanNode dirPath fs with
  | none => .error ("Failed to scan directory: " ++ dirPath)
  | some (node, cnt, sz) => .ok ⟨node, cnt, sz⟩

theorem execLoop_eq (outcome : Nat → MoveOutcome) :
    ∀ (ops : List FileOperation) (i : Nat) (ex : List LoggedOp) (er : List String),
    execLoop outcome ops i ex er =
      (ex ++ executedMoves outcome i ops, er ++ moveErrors outcome i ops)
  | [], i, ex, er => by
    simp [execLoop, executedMoves, moveErrors]
  | op :: rest, i, ex, er => by
    cases op with
    | mk t src dst =>
      cases t
      cases h : outcome i with
      | ok d =>
        simp only [execLoop, executedMoves, moveErrors, h,
          execLoop_eq outcome rest (i + 1) (ex ++ [⟨src, d⟩]) er]
        simp
      | err m =>
        simp only [execLoop, executedMoves, moveErrors, h,
          execLoop_eq outcome rest (i + 1) ex (er ++ ["Failed to move " ++ src ++ ": " ++ m])]
        simp

theorem executedMoves_moveErrors_length (outcome : Nat → MoveOutcome) :
    ∀ (ops : List FileOperation) (i : Nat),
    (executedMoves outcome i ops).length + (moveErrors outcome i ops).length = ops.length
  | [], _ => by simp [executedMoves, moveErrors]
  | op :: rest, i => by
    have ih := executedMoves_moveErrors_length outcome rest (i + 1)
    cases h : outcome i with
    | ok d =>
      simp only [executedMoves, moveErrors, h, List.length_cons]
      omega
    | err m =>
      simp only [executedMoves, moveErrors, h, List.length_cons]
      omega

/-- C2: in `BatchExecutor.execute`, every operation that throws is
caught individually and contributes exactly one error string (carrying
its source path) while the remaining operations are still attempted —
the error list is exactly the in-order list of per-failure messages
and the executed-move list is exactly the in-order list of successes
(no rollback); the returned `success` flag is true if and only if
`errors` is empty. -/
theorem c2_execute_errors (outcome : Nat → MoveOutcome) (logId : Int)
    (ops : List FileOperation) :
    ((executeBatch outcome logId ops).1.errors = moveErrors outcome 0 ops) ∧
    ((executeBatch outcome logId ops).1.processed = (executedMoves outcome 0 ops).length) ∧
    ((executeBatch outcome logId ops).1.success = true ↔
      (executeBatch outcome logId ops).1.errors = []) := by
  simp only [executeBatch, execLoop_eq outcome ops 0 [] [], List.nil_append]
  simp [List.isEmpty_iff]

/-- C9: `BatchExecutor.execute` accounts for every input operation:
the returned `processed` count plus the number of error strings equals
the number of operations, and the persisted log (written exactly when
at least one move succeeded) records precisely the successful moves
with their actual destinations. -/
theorem c9_execute_accounting (outcome : Nat → MoveOutcome) (logId : Int)
    (ops : List FileOperation) :
    ((executeBatch outcome logId ops).1.processed +
      ((executeBatch outcome logId ops).1.errors).length = ops.length) ∧
    ((executeBatch outcome logId ops).2 =
      if executedMoves outcome 0 ops = [] then none
      else some ⟨logId, executedMoves outcome 0 ops⟩) := by
  simp only [executeBatch, execLoop_eq outcome ops 0 [] [], List.nil_append]
  constructor
  · exact executedMoves_moveErrors_length outcome ops 0
  · rcases h : executedMoves outcome 0 ops with _ | ⟨a, l⟩ <;> simp [h]

/-- Whether the scan of the root itself yields nothing (a hard error
for `scanDirectory`): stat failure, unreadable directory listing, or a
non-file non-directory entry. -/
def rootScanFails : FS → Bool
  | .file _ _ => false
  | .dir _ _ => false
  | .unlistable _ => true
  | .special _ => true
  | .inaccessible => true

/-- C10: scanning a path whose stat reports a regular file does not
fail: the result is a file-kind root node for that path with
`fileCount` 1 and `totalSize` equal to the file's size. -/
theorem c10_scan_file_root (p : String) (sz : Nat) (mt : Int) :
    scanDirectory p (.file sz mt) =
      .ok ⟨.mk p (baseName p) .file sz mt none, 1, sz⟩ := by
  rfl

/-- C4 counterexample: the claim says `scanDirectory` hard-fails only
when the root cannot be stat'd, but a root directory whose `stat`
succeeds while its listing fails also produces the hard error. -/
theorem c4_counterexample :
    statOk (.unlistable 0) = true ∧
      scanDirectory "/r" (.unlistable 0) = .error "Failed to scan directory: /r" := by
  exact ⟨rfl, rfl⟩

theorem scanEntries_drop (p nm : String) (bad : FS)
    (h : scanNode (pathJoin p nm) bad = none) :
    ∀ (es1 es2 : List (String × FS)),
    scanEntries p (es1 ++ (nm, bad) :: es2) = scanEntries p (es1 ++ es2)
  | [], es2 => by simp [scanEntries, h]
  | (n1, f1) :: es1, es2 => by
    simp only [List.cons_append, scanEntries, List.append_eq,
      scanEntries_drop p nm bad h es1 es2]

/-- C4 (amended): `scanDirectory` hard-fails exactly when the root
scan itself yields nothing — the root cannot be stat'd, the root
directory's listing fails, or the root is neither file nor directory;
and for an entry strictly below the root whose scan fails, only that
subtree is dropped: the scan result is the same as if the entry were
absent, and the rest completes normally. -/
theorem c4_scan_errors (p : String) (fs : FS) (nm : String) (bad : FS)
    (mt : Int) (es1 es2 : List (String × FS))
    (hbad : scanNode (pathJoin p nm) bad = none) :
    (scanDirectory p fs = .error ("Failed to scan directory: " ++ p) ↔
      rootScanFails fs = true) ∧
    scanNode p (.dir (es1 ++ (nm, bad) :: es2) mt) =
      scanNode p (.dir (es1 ++ es2) mt) := by
  constructor
  · cases fs <;> simp [scanDirectory, scanNode, rootScanFails]
  · simp only [scanNode, scanEntries_drop p nm bad hbad es1 es2]

/-- Witness for `c4_scan_errors` at a concrete filesystem: a root
directory with one readable file and one stat-failing entry scans to
the same result as the directory without the bad entry, and an
unlistable root yields the hard error. -/
theorem c4_scan_errors_witness :
    (scanDirectory "/r" (.unlistable 5) = .error ("Failed to scan directory: " ++ "/r") ↔
      rootScanFails (.unlistable 5) = true) ∧
    scanNode "/r" (.dir ([("a", .file 3 0)] ++ ("x", .inaccessible) :: []) 7) =
      scanNode "/r" (.dir ([("a", .file 3 0)] ++ []) 7) := by
  exact c4_scan_errors "/r" (.unlistable 5) "x" .inaccessible 7 [("a", .file 3 0)] [] rfl


theorem charToNat_inj {a b : Char} (h : a.toNat = b.toNat) : a = b :=
  Char.eq_of_val_eq (UInt32.ext h)

theorem lexLe_refl : ∀ cs : List Char, lexLe cs cs = true
  | [] => rfl
  | c :: cs => by simp [lexLe, lexLe_refl cs]

theorem lexLe_total : ∀ a b : List Char, lexLe a b = true ∨ lexLe b a = true
  | [], _ => Or.inl rfl
  | _ :: _, [] => Or.inr rfl
  | a :: as, b :: bs => by
    by_cases hab : a = b
    · subst hab
      rcases lexLe_total as bs with h | h
      · exact Or.inl (by simp [lexLe, h])
      · exact Or.inr (by simp [lexLe, h])
    · have hba : b ≠ a := fun h => hab h.symm
      rcases Nat.lt_or_ge a.toNat b.toNat with h | h
      · exact Or.inl (by simp [lexLe, hab, Nat.blt_eq, h])
      · have hlt : b.toNat < a.toNat :=
          Nat.lt_of_le_of_ne h (fun h2 => hab (charToNat_inj h2.symm))
        exact Or.inr (by simp [lexLe, hba, Nat.blt_eq, hlt])

theorem lexLe_trans : ∀ a b c : List Char,
    lexLe a b = true → lexLe b c = true → lexLe a c = true
  | [], _, _ => fun _ _ => rfl
  | x :: xs, [], _ => fun h _ => by simp [lexLe] at h
  | x :: xs, y :: ys, [] => fun _ h => by simp [lexLe] at h
  | x :: xs, y :: ys, z :: zs => by
    intro h1 h2
    by_cases hxy : x = y
    · subst hxy
      rw [lexLe, if_pos rfl] at h1
      by_cases hyz : x = z
      · subst hyz
        rw [lexLe, if_pos rfl] at h2 ⊢
        exact lexLe_trans xs ys zs h1 h2
      · rw [lexLe, if_neg hyz] at h2 ⊢
        exact h2
    · rw [lexLe, if_neg hxy, Nat.blt_eq] at h1
      by_cases hyz : y = z
      · subst hyz
        rw [lexLe, if_neg hxy, Nat.blt_eq]
        exact h1
      · rw [lexLe, if_neg hyz, Nat.blt_eq] at h2
        have hxz : x ≠ z := by
          intro he
          subst he
          exact Nat.lt_irrefl _ (Nat.lt_trans h1 h2)
        rw [lexLe, if_neg hxz, Nat.blt_eq]
        exact Nat.lt_trans h1 h2

theorem strLe_refl (a : String) : strLe a a = true :=
  lexLe_refl a.data

theorem strLe_total (a b : String) : strLe a b = true ∨ strLe b a = true :=
  lexLe_total a.data b.data

theorem strLe_trans {a b c : String} (h1 : strLe a b = true) (h2 : strLe b c = true) :
    strLe a c = true :=
  lexLe_trans a.data b.data c.data h1 h2

theorem mem_insertLe {α : Type} (le : α → α → Bool) (x : α) :
    ∀ (l : List α) (a : α), a ∈ insertLe le x l ↔ a = x ∨ a ∈ l
  | [], a => by simp [insertLe]
  | y :: ys, a => by
    by_cases h : le x y = true
    · simp [insertLe, h]
    · simp only [insertLe, h, Bool.false_eq_true, if_false, List.mem_cons,
        mem_insertLe le x ys a]
      tauto

theorem insertLe_perm {α : Type} (le : α → α → Bool) (x : α) :
    ∀ l : List α, (insertLe le x l).Perm (x :: l)
  | [] => List.Perm.refl _
  | y :: ys => by
    by_cases h : le x y = true
    · simp [insertLe, h]
    · simp only [insertLe, h, Bool.false_eq_true, if_false]
      exact ((insertLe_perm le x ys).cons y).trans (List.Perm.swap x y ys)

theorem sortLe_perm {α : Type} (le : α → α → Bool) :
    ∀ l : List α, (sortLe le l).Perm l
  | [] => List.Perm.refl _
  | x :: xs => (insertLe_perm le x (sortLe le xs)).trans ((sortLe_perm le xs).cons x)

theorem mem_sortLe {α : Type} (le : α → α → Bool) (l : List α) (a : α) :
    a ∈ sortLe le l ↔ a ∈ l :=
  (sortLe_perm le l).mem_iff

theorem pairwise_insertLe {α : Type} (le : α → α → Bool)
    (htot : ∀ a b : α, le a b = true ∨ le b a = true)
    (htrans : ∀ a b c : α, le a b = true → le b c = true → le a c = true) (x : α) :
    ∀ l : List α, l.Pairwise (fun a b => le a b = true) →
      (insertLe le x l).Pairwise (fun a b => le a b = true)
  | [], _ => by simp [insertLe]
  | y :: ys, hp => by
    rcases List.pairwise_cons.1 hp with ⟨hy, hys⟩
    by_cases h : le x y = true
    · simp only [insertLe, h, if_true]
      refine List.pairwise_cons.2 ⟨?_, hp⟩
      intro b hb
      rcases List.mem_cons.1 hb with rfl | hb
      · exact h
      · exact htrans x y b h (hy b hb)
    · simp only [insertLe, h, Bool.false_eq_true, if_false]
      refine List.pairwise_cons.2 ⟨?_, pairwise_insertLe le htot htrans x ys hys⟩
      intro b hb
      rcases (mem_insertLe le x ys b).1 hb with rfl | hb
      · rcases htot y b with h2 | h2
        · exact h2
        · exact absurd h2 (by simpa using h)
      · exact hy b hb

theorem sortLe_pairwise {α : Type} (le : α → α → Bool)
    (htot : ∀ a b : α, le a b = true ∨ le b a = true)
    (htrans : ∀ a b c : α, le a b = true → le b c = true → le a c = true) :
    ∀ l : List α, (sortLe le l).Pairwise (fun a b => le a b = true)
  | [] => List.Pairwise.nil
  | x :: xs => pairwise_insertLe le htot htrans x (sortLe le xs)
      (sortLe_pairwise le htot htrans xs)

theorem pairwise_all_le_getLast {α : Type} {R : α → α → Prop} :
    ∀ (l : List α) (m : α), l.Pairwise R → l.getLast? = some m →
      ∀ x ∈ l, R x m ∨ x = m := by
  intro l
  induction l with
  | nil => intro m _ h; simp at h
  | cons y ys ih =>
    intro m hp hlast x hx
    rcases List.pairwise_cons.1 hp with ⟨hy, hys⟩
    cases ys with
    | nil =>
      simp only [List.getLast?_singleton, Option.some.injEq] at hlast
      subst hlast
      rcases List.mem_singleton.1 hx with rfl
      exact Or.inr rfl
    | cons z zs =>
      have hlast2 : (z :: zs).getLast? = some m := by
        rw [List.getLast?_cons_cons] at hlast
        exact hlast
      rcases List.mem_cons.1 hx with rfl | hx
      · exact Or.inl (hy m (List.mem_of_mem_getLast? hlast2))
      · exact ih m hys hlast2 x hx

theorem undoLoop_eq (outcome : Nat → Option String) :
    ∀ (ops : List LoggedOp) (i : Nat) (ex : List LoggedOp) (er : List String),
    undoLoop outcome ops i (ex, er) =
      (ex ++ revertedMoves outcome i ops, er ++ revertErrors outcome i ops)
  | [], i, ex, er => by
    simp [undoLoop, revertedMoves, revertErrors]
  | op :: rest, i, ex, er => by
    cases h : outcome i with
    | none =>
      simp only [undoLoop, revertedMoves, revertErrors, h,
        undoLoop_eq outcome rest (i + 1) (ex ++ [⟨op.destination, op.source⟩]) er]
      simp
    | some m =>
      simp only [undoLoop, revertedMoves, revertErrors, h,
        undoLoop_eq outcome rest (i + 1) ex
          (er ++ ["Failed to revert " ++ op.destination ++ ": " ++ m])]
      simp

/-- C3: `undoLastBatch` selects the lexicographically greatest
`batch-*.json` log filename (the most recent batch), replays that
log's operations in reverse order moving each logged destination back
to its logged source, collects one error string per failing revert
without aborting the rest, and deletes the log file exactly when the
undo produced zero errors. -/
theorem c3_undo_behaviour (files : List String) (readLog : String → LogEntry)
    (outcome : Nat → Option String) (sel : String)
    (hsel : (sortStrs (files.filter isBatchLog)).reverse.head? = some sel) :
    (sel ∈ files ∧ isBatchLog sel = true ∧
      ∀ g ∈ files, isBatchLog g = true → strLe g sel = true) ∧
    ((undoLastBatch files readLog outcome).1.errors =
        revertErrors outcome 0 (readLog sel).operations.reverse ∧
      (undoLastBatch files readLog outcome).1.processed =
        (revertedMoves outcome 0 (readLog sel).operations.reverse).length ∧
      ((undoLastBatch files readLog outcome).1.success = true ↔
        (undoLastBatch files readLog outcome).1.errors = []) ∧
      ((undoLastBatch files readLog outcome).2 = some sel ↔
        (undoLastBatch files readLog outcome).1.errors = [])) := by
  have hmem : sel ∈ sortStrs (files.filter isBatchLog) := by
    have := List.mem_of_mem_head? hsel
    simpa using this
  have hmemf : sel ∈ files.filter isBatchLog := (mem_sortLe _ _ _).1 hmem
  have hmax : ∀ g ∈ files, isBatchLog g = true → strLe g sel = true := by
    intro g hg hbatch
    have hgmem : g ∈ sortStrs (files.filter isBatchLog) :=
      (mem_sortLe _ _ _).2 (List.mem_filter.2 ⟨hg, hbatch⟩)
    have hlast : (sortStrs (files.filter isBatchLog)).getLast? = some sel := by
      rw [← List.head?_reverse]
      exact hsel
    have hpw := sortLe_pairwise strLe strLe_total
      (fun a b c => strLe_trans) (files.filter isBatchLog)
    rcases pairwise_all_le_getLast _ sel hpw hlast g hgmem with h | rfl
    · exact h
    · exact strLe_refl g
  obtain ⟨t, ht⟩ : ∃ t, (sortStrs (files.filter isBatchLog)).reverse = sel :: t := by
    cases hrev : (sortStrs (files.filter isBatchLog)).reverse with
    | nil => rw [hrev] at hsel; simp at hsel
    | cons a t =>
      rw [hrev] at hsel
      simp only [List.head?_cons, Option.some.injEq] at hsel
      exact ⟨t, by rw [hsel]⟩
  refine ⟨⟨(List.mem_filter.1 hmemf).1, (List.mem_filter.1 hmemf).2, hmax⟩, ?_⟩
  simp only [undoLastBatch, ht,
    undoLoop_eq outcome (readLog sel).operations.reverse 0 [] [], List.nil_append]
  refine ⟨trivial, trivial, ?_, ?_⟩
  · simp [List.isEmpty_iff]
  · cases he : revertErrors outcome 0 (readLog sel).operations.reverse with
    | nil => simp [he]
    | cons e es => simp [he]

/-- Witness for `c3_undo_behaviour`: with log files `batch-1.json` and
`batch-2.json` present (plus a non-log file), the newest log
`batch-2.json` is selected and, with every revert succeeding, it is
deleted. -/
theorem c3_undo_behaviour_witness :
    (undoLastBatch ["batch-1.json", "batch-2.json", "notes.txt"]
        (fun _ => ⟨0, [⟨"/a/s1", "/b/d1"⟩, ⟨"/a/s2", "/b/d2"⟩]⟩)
        (fun _ => none)).2 = some "batch-2.json" := by
  have h := c3_undo_behaviour ["batch-1.json", "batch-2.json", "notes.txt"]
    (fun _ => ⟨0, [⟨"/a/s1", "/b/d1"⟩, ⟨"/a/s2", "/b/d2"⟩]⟩)
    (fun _ => none) "batch-2.json" rfl
  refine h.2.2.2.2.2 ?_
  rw [h.2.1]
  rfl

/-- The target node after `addNodeToTarget` appends `x`:
`{...node, children: [...(node.children || []), x]}`. -/
def appendChild (d x : FileNode) : FileNode :=
  .mk d.path d.name d.ntype d.size d.mtime (some (d.childrenD ++ [x]))

mutual
theorem fileNodeRec {P : FileNode → Prop} {Q : List FileNode → Prop}
    (h1 : ∀ pa na t sz mt, P (.mk pa na t sz mt none))
    (h2 : ∀ pa na t sz mt cs, Q cs → P (.mk pa na t sz mt (some cs)))
    (hnil : Q [])
    (hcons : ∀ n rest, P n → Q rest → Q (n :: rest)) :
    ∀ n : FileNode, P n
  | .mk pa na t sz mt none => h1 pa na t sz mt
  | .mk pa na t sz mt (some cs) =>
    h2 pa na t sz mt cs (fileListRec h1 h2 hnil hcons cs)

theorem fileListRec {P : FileNode → Prop} {Q : List FileNode → Prop}
    (h1 : ∀ pa na t sz mt, P (.mk pa na t sz mt none))
    (h2 : ∀ pa na t sz mt cs, Q cs → P (.mk pa na t sz mt (some cs)))
    (hnil : Q [])
    (hcons : ∀ n rest, P n → Q rest → Q (n :: rest)) :
    ∀ l : List FileNode, Q l
  | [] => hnil
  | n :: rest =>
    hcons n rest (fileNodeRec h1 h2 hnil hcons n) (fileListRec h1 h2 hnil hcons rest)
end

theorem findNode_removeNode (ns : List FileNode) (p : String) :
    findNode (removeNode ns p) p = none := by
  refine fileListRec (P := fun n => ∀ q, n.path ≠ q → findNodeOne (removeNodeOne n q) q = none)
    (Q := fun l => ∀ q, findNode (removeNode l q) q = none) ?_ ?_ ?_ ?_ ns p
  · intro pa na t sz mt q hne
    simp only [FileNode.path] at hne
    simp [removeNodeOne, findNodeOne, hne]
  · intro pa na t sz mt cs ih q hne
    simp only [FileNode.path] at hne
    simp [removeNodeOne, findNodeOne, hne, ih q]
  · intro q
    rfl
  · intro n rest ihn ihr q
    by_cases h : n.path = q
    · rw [removeNode, if_pos h]
      exact ihr q
    · rw [removeNode, if_neg h, findNode, ihn q h]
      exact ihr q

theorem addNode_absent_pair (x : FileNode) :
    (∀ (n : FileNode) (q : String), findNodeOne n q = none → addNodeOne n q x = n) ∧
    (∀ (l : List FileNode) (q : String), findNode l q = none → addNodeToTarget l q x = l) := by
  have H1 : ∀ pa na t sz mt, ∀ q : String,
      findNodeOne (.mk pa na t sz mt none) q = none →
      addNodeOne (.mk pa na t sz mt none) q x = .mk pa na t sz mt none := by
    intro pa na t sz mt q h
    by_cases hpa : pa = q
    · simp only [findNodeOne, if_pos hpa] at h
      exact Option.noConfusion h
    · simp [addNodeOne, hpa]
  have H2 : ∀ pa na t sz mt cs,
      (∀ q : String, findNode cs q = none → addNodeToTarget cs q x = cs) →
      ∀ q : String, findNodeOne (.mk pa na t sz mt (some cs)) q = none →
      addNodeOne (.mk pa na t sz mt (some cs)) q x = .mk pa na t sz mt (some cs) := by
    intro pa na t sz mt cs ih q h
    by_cases hpa : pa = q
    · simp only [findNodeOne, if_pos hpa] at h
      exact Option.noConfusion h
    · simp only [findNodeOne, if_neg hpa] at h
      simp only [addNodeOne, if_neg hpa]
      rw [ih q h]
  have Hcons : ∀ (n : FileNode) (rest : List FileNode),
      (∀ q : String, findNodeOne n q = none → addNodeOne n q x = n) →
      (∀ q : String, findNode rest q = none → addNodeToTarget rest q x = rest) →
      ∀ q : String, findNode (n :: rest) q = none →
      addNodeToTarget (n :: rest) q x = n :: rest := by
    intro n rest ihn ihr q h
    rw [findNode] at h
    cases hn : findNodeOne n q with
    | some found => rw [hn] at h; exact Option.noConfusion h
    | none =>
      rw [hn] at h
      rw [addNodeToTarget, ihn q hn, ihr q h]
  exact ⟨fun n => fileNodeRec H1 H2 (fun _ _ => rfl) Hcons n,
    fun l => fileListRec H1 H2 (fun _ _ => rfl) Hcons l⟩

theorem addNodeToTarget_of_absent (ns : List FileNode) (tgt : String) (x : FileNode)
    (habs : findNode ns tgt = none) : addNodeToTarget ns tgt x = ns :=
  (addNode_absent_pair x).2 ns tgt habs

theorem findNode_addNodeToTarget (ns : List FileNode) (tgt : String) (x d : FileNode)
    (hfound : findNode ns tgt = some d) :
    findNode (addNodeToTarget ns tgt x) tgt = some (appendChild d x) := by
  refine fileListRec
    (P := fun n => ∀ (q : String) (d1 : FileNode), findNodeOne n q = some d1 →
      findNodeOne (addNodeOne n q x) q = some (appendChild d1 x))
    (Q := fun l => ∀ (q : String) (d1 : FileNode), findNode l q = some d1 →
      findNode (addNodeToTarget l q x) q = some (appendChild d1 x)) ?_ ?_ ?_ ?_ ns tgt d hfound
  · intro pa na t sz mt q d1 h
    by_cases hpa : pa = q
    · simp only [findNodeOne, if_pos hpa, Option.some.injEq] at h
      subst h
      simp only [addNodeOne, if_pos hpa]
      simp only [findNodeOne, if_pos hpa]
      rfl
    · simp only [findNodeOne, if_neg hpa] at h
      exact Option.noConfusion h
  · intro pa na t sz mt cs ih q d1 h
    by_cases hpa : pa = q
    · simp only [findNodeOne, if_pos hpa, Option.some.injEq] at h
      subst h
      simp only [addNodeOne, if_pos hpa]
      simp only [findNodeOne, if_pos hpa]
      rfl
    · simp only [findNodeOne, if_neg hpa] at h
      simp only [addNodeOne, if_neg hpa]
      simp only [findNodeOne, if_neg hpa]
      exact ih q d1 h
  · intro q d1 h
    exact Option.noConfusion h
  · intro n rest ihn ihr q d1 h
    rw [findNode] at h
    cases hn : findNodeOne n q with
    | some found =>
      rw [hn] at h
      simp only [Option.some.injEq] at h
      subst h
      rw [addNodeToTarget, findNode, ihn q found hn]
    | none =>
      rw [hn] at h
      rw [addNodeToTarget, findNode, (addNode_absent_pair x).1 n q hn, hn]
      exact ihr q d1 h

/-- C7 counterexample: with two sibling file nodes `/a` and `/b` and
no directory node at the target path `/b`, the claim predicts the
moved node is dropped; instead `moveFileInTree` appends `/a` as a
child of the *file* node `/b`, so `/a` is still present in the result. -/
theorem c7_counterexample :
    (∀ n ∈ [FileNode.mk "/a" "a" .file 1 0 none, FileNode.mk "/b" "b" .file 2 0 none],
      ¬(n.ntype = .directory ∧ n.path = "/b")) ∧
    findNode
        (moveFileInTree
          [FileNode.mk "/a" "a" .file 1 0 none, FileNode.mk "/b" "b" .file 2 0 none]
          "/a" "/b")
        "/a" = some (FileNode.mk "/a" "a" .file 1 0 none) := by
  constructor
  · decide
  · rfl

/-- C7 (amended): when a node exists at `sourcePath`,
`moveFileInTree` removes it from wherever it sits (no node at
`sourcePath` survives the removal pass); if any node — file or
directory, the code never checks the kind — remains at
`targetDirectoryPath`, the moved node is appended as the last child of
the first such node in pre-order; only when no node at all with the
target path remains is the moved node dropped (the result is exactly
the post-removal tree). The caller's tree is unchanged in the pure
embedding (the code deep-clones before editing). -/
theorem c7_move_in_tree (roots : List FileNode) (src tgt : String) (node : FileNode)
    (hfind : findNode roots src = some node) :
    findNode (removeNode roots src) src = none ∧
    (findNode (removeNode roots src) tgt = none →
      moveFileInTree roots src tgt = removeNode roots src) ∧
    (∀ d, findNode (removeNode roots src) tgt = some d →
      findNode (moveFileInTree roots src tgt) tgt = some (appendChild d node)) := by
  refine ⟨findNode_removeNode roots src, ?_, ?_⟩
  · intro habs
    rw [moveFileInTree, hfind]
    exact addNodeToTarget_of_absent _ tgt node habs
  · intro d hd
    rw [moveFileInTree, hfind]
    exact findNode_addNodeToTarget _ tgt node d hd

/-- Witness for `c7_move_in_tree`: moving `/r/a` out of directory `/r`
into directory `/d` appends it as the last child of `/d`. -/
theorem c7_move_in_tree_witness :
    findNode
        (moveFileInTree
          [FileNode.mk "/r" "r" .directory 1 0 (some [FileNode.mk "/r/a" "a" .file 1 0 none]),
           FileNode.mk "/d" "d" .directory 0 0 (some [])]
          "/r/a" "/d")
        "/d" =
      some (appendChild (FileNode.mk "/d" "d" .directory 0 0 (some []))
        (FileNode.mk "/r/a" "a" .file 1 0 none)) := by
  exact (c7_move_in_tree
    [FileNode.mk "/r" "r" .directory 1 0 (some [FileNode.mk "/r/a" "a" .file 1 0 none]),
     FileNode.mk "/d" "d" .directory 0 0 (some [])]
    "/r/a" "/d" (FileNode.mk "/r/a" "a" .file 1 0 none) rfl).2.2
    (FileNode.mk "/d" "d" .directory 0 0 (some [])) rfl

theorem isPrefixOf_append (l t : List Char) : l.isPrefixOf (l ++ t) = true := by
  induction l with
  | nil => simp [List.isPrefixOf]
  | cons c cs ih => simp [List.isPrefixOf, ih]

theorem createDirectory_virtual (suffix : String) (now : Int) (name : String)
    (children : List FileNode) :
    strStartsWith (createDirectory suffix now name children).path "virtual://" = true := by
  simp only [createDirectory, FileNode.path, strStartsWith]
  have : ("virtual://" ++ name ++ "-" ++ suffix).data =
      "virtual://".data ++ (name.data ++ "-".data ++ suffix.data) := by
    simp [String.data_append]
  rw [this]
  exact isPrefixOf_append _ _

theorem buildMonthNodes_virtual (sfx : Nat → String) (now : Int) (ms : MonthGroups) :
    ∀ (ks : List String) (k : Nat),
    ((buildMonthNodes sfx now ms k ks).1.all
      (fun c => strStartsWith c.path "virtual://")) = true
  | [], _ => rfl
  | m :: rest, k => by
    simp only [buildMonthNodes, List.all_cons, createDirectory_virtual, Bool.true_and]
    exact buildMonthNodes_virtual sfx now ms rest (k + 1)

theorem buildYearNodes_virtual (sfx : Nat → String) (now : Int) (g : YearGroups) :
    ∀ (ks : List String) (k : Nat),
    ((buildYearNodes sfx now g k ks).1.all
      (fun c => strStartsWith c.path "virtual://")) = true
  | [], _ => rfl
  | y :: rest, k => by
    simp only [buildYearNodes, List.all_cons, createDirectory_virtual, Bool.true_and]
    exact buildYearNodes_virtual sfx now g rest _

theorem buildCatNodes_virtual (sfx : Nat → String) (now : Int)
    (groups : List (String × List FileNode)) :
    ∀ (ks : List String) (k : Nat),
    ((buildCatNodes sfx now groups k ks).1.all
      (fun c => strStartsWith c.path "virtual://")) = true
  | [], _ => rfl
  | cat :: rest, k => by
    simp only [buildCatNodes, List.all_cons, createDirectory_virtual, Bool.true_and]
    exact buildCatNodes_virtual sfx now groups rest (k + 1)

theorem buildTopics_virtual (sfx : Nat → String) (now : Int) (files : List FileNode) :
    ∀ (mapping : List (String × List String)) (k : Nat) (handled : List String),
    ((buildTopics sfx now files mapping k handled).1.all
      (fun c => strStartsWith c.path "virtual://")) = true
  | [], _, _ => rfl
  | (topic, names) :: rest, k, handled => by
    by_cases h : (names.filterMap (fun n => (fileMapGet files n).map cloneTree)).isEmpty = true
    · simp only [buildTopics, h, if_true]
      exact buildTopics_virtual sfx now files rest k _
    · simp only [buildTopics, h, Bool.false_eq_true, if_false, List.all_cons,
        createDirectory_virtual, Bool.true_and]
      exact buildTopics_virtual sfx now files rest (k + 1) _

/-- C8: every strategy returns a root that preserves the input root's
`path` and `name` (indeed every spread field), and whose children list
is entirely newly built: every child is a freshly created virtual
directory (its path carries the `virtual://` key prefix, which no
scanned node has). In this pure embedding `apply` cannot mutate its
argument, matching the code, which only reads the input and builds the
output from clones. -/
theorem c8_strategies_fresh (sfx : Nat → String) (now : Int)
    (mapping : List (String × List String)) (root : FileNode) :
    ((applyTime sfx now root).path = root.path ∧
      (applyTime sfx now root).name = root.name ∧
      ((applyTime sfx now root).childrenD.all
        (fun c => strStartsWith c.path "virtual://")) = true) ∧
    ((applyType sfx now root).path = root.path ∧
      (applyType sfx now root).name = root.name ∧
      ((applyType sfx now root).childrenD.all
        (fun c => strStartsWith c.path "virtual://")) = true) ∧
    ((applyTopic sfx now mapping root).path = root.path ∧
      (applyTopic sfx now mapping root).name = root.name ∧
      ((applyTopic sfx now mapping root).childrenD.all
        (fun c => strStartsWith c.path "virtual://")) = true) := by
  refine ⟨⟨rfl, rfl, ?_⟩, ⟨rfl, rfl, ?_⟩, ⟨rfl, rfl, ?_⟩⟩
  · simp only [applyTime, FileNode.childrenD, FileNode.children, Option.getD_some]
    exact buildYearNodes_virtual sfx now _ _ 0
  · simp only [applyType, FileNode.childrenD, FileNode.children, Option.getD_some]
    exact buildCatNodes_virtual sfx now _ _ 0
  · simp only [applyTopic, FileNode.childrenD, FileNode.children, Option.getD_some]
    rw [List.all_append]
    rw [Bool.and_eq_true]
    constructor
    · exact buildTopics_virtual sfx now _ mapping 0 []
    · split
      · rfl
      · simp [createDirectory_virtual]

theorem fileMapGet_spec (files : List FileNode) (nm : String) (f : FileNode)
    (h : fileMapGet files nm = some f) : f ∈ files ∧ f.name = nm := by
  have hmem := List.mem_of_mem_getLast? h
  have hf := List.mem_filter.1 hmem
  exact ⟨hf.1, by simpa using hf.2⟩

theorem strBeq_comm (a b : String) : (a == b) = (b == a) := by
  by_cases h : a = b
  · subst h
    rfl
  · rw [beq_eq_false_iff_ne.2 h, beq_eq_false_iff_ne.2 (fun e => h e.symm)]

theorem topicNodes_any_name (files : List FileNode) (nm : String)
    (hsome : (fileMapGet files nm).isSome = true) :
    ∀ ns : List String,
    ((ns.filterMap (fun n => (fileMapGet files n).map cloneTree)).any
        (fun g => g.name == nm)) = ns.contains nm
  | [] => rfl
  | n :: rest => by
    rw [List.contains_cons]
    cases hn : fileMapGet files n with
    | none =>
      have hne : (nm == n) = false := by
        apply beq_eq_false_iff_ne.2
        intro he
        rw [← he] at hn
        rw [hn] at hsome
        simp at hsome
      simp only [List.filterMap_cons, hn, Option.map_none', hne, Bool.false_or]
      exact topicNodes_any_name files nm hsome rest
    | some f =>
      have hf := fileMapGet_spec files n f hn
      simp only [List.filterMap_cons, hn, Option.map_some', List.any_cons, cloneTree]
      rw [topicNodes_any_name files nm hsome rest]
      have h1 : (f.name == nm) = (n == nm) := by rw [hf.2]
      rw [h1, strBeq_comm n nm]

theorem buildTopics_handled (sfx : Nat → String) (now : Int) (files : List FileNode) :
    ∀ (mapping : List (String × List String)) (k : Nat) (handled : List String),
    (buildTopics sfx now files mapping k handled).2.1 =
      handled ++ mapping.flatMap (fun e => e.2.filter (fun n => (fileMapGet files n).isSome))
  | [], _, handled => by simp [buildTopics]
  | (topic, ns) :: rest, k, handled => by
    by_cases h : (ns.filterMap (fun n => (fileMapGet files n).map cloneTree)).isEmpty = true
    · simp only [buildTopics, h, if_true, List.flatMap_cons]
      rw [buildTopics_handled sfx now files rest k _]
      simp [List.append_assoc]
    · simp only [buildTopics, h, Bool.false_eq_true, if_false, List.flatMap_cons]
      rw [buildTopics_handled sfx now files rest (k + 1) _]
      simp [List.append_assoc]

theorem buildTopics_count (sfx : Nat → String) (now : Int) (files : List FileNode)
    (nm : String) (hsome : (fileMapGet files nm).isSome = true) :
    ∀ (mapping : List (String × List String)) (k : Nat) (handled : List String),
    ((buildTopics sfx now files mapping k handled).1.countP
        (fun d => d.childrenD.any (fun g => g.name == nm))) =
      mapping.countP (fun e => e.2.contains nm)
  | [], _, _ => rfl
  | (topic, ns) :: rest, k, handled => by
    by_cases h : (ns.filterMap (fun n => (fileMapGet files n).map cloneTree)).isEmpty = true
    · have hnc : ns.contains nm = false := by
        cases hc : ns.contains nm with
        | false => rfl
        | true =>
          rw [← topicNodes_any_name files nm hsome ns] at hc
          rcases List.any_eq_true.1 hc with ⟨g, hg, _⟩
          rw [List.isEmpty_iff.1 h] at hg
          exact absurd hg (List.not_mem_nil g)
      simp only [buildTopics, h, if_true, List.countP_cons, hnc]
      rw [buildTopics_count sfx now files nm hsome rest k _]
      simp
    · simp only [buildTopics, h, Bool.false_eq_true, if_false]
      rw [List.countP_cons, List.countP_cons,
        buildTopics_count sfx now files nm hsome rest (k + 1) _]
      have hch : (createDirectory (sfx k) now topic
          (ns.filterMap (fun n => (fileMapGet files n).map cloneTree))).childrenD =
          ns.filterMap (fun n => (fileMapGet files n).map cloneTree) := rfl
      rw [hch, topicNodes_any_name files nm hsome ns]

theorem contains_append_str (l1 l2 : List String) (a : String) :
    (l1 ++ l2).contains a = (l1.contains a || l2.contains a) := by
  induction l1 with
  | nil => simp
  | cons x xs ih => simp [List.contains_cons, ih, Bool.or_assoc]

theorem filter_contains_of_pred (ns : List String) (nm : String) (p : String → Bool)
    (hp : p nm = true) : (ns.filter p).contains nm = ns.contains nm := by
  induction ns with
  | nil => rfl
  | cons x xs ih =>
    by_cases hx : x = nm
    · subst hx
      simp [List.filter_cons, hp, List.contains_cons, beq_self_eq_true]
    · have hbe : (nm == x) = false := beq_eq_false_iff_ne.2 (fun e => hx e.symm)
      cases hpx : p x with
      | true => simp [List.filter_cons, hpx, List.contains_cons, hbe, ih, hp, Ne.symm hx]
      | false => simp [List.filter_cons, hpx, List.contains_cons, hbe, ih, hp, Ne.symm hx]

theorem matched_contains (files : List FileNode) (nm : String)
    (hsome : (fileMapGet files nm).isSome = true) :
    ∀ mapping : List (String × List String),
    ((mapping.flatMap (fun e => e.2.filter (fun n => (fileMapGet files n).isSome))).contains nm)
      = mapping.any (fun e => e.2.contains nm)
  | [] => rfl
  | (t, ns) :: rest => by
    rw [List.flatMap_cons, contains_append_str, List.any_cons,
      filter_contains_of_pred ns nm _ hsome, matched_contains files nm hsome rest]

theorem map_cloneTree (l : List FileNode) : l.map cloneTree = l := by
  induction l with
  | nil => rfl
  | cons x xs ih => simp [cloneTree, ih]

theorem topicNodes_sound (files : List FileNode) :
    ∀ ns : List String,
    ((ns.filterMap (fun n => (fileMapGet files n).map cloneTree)).all
        (fun g => decide (g ∈ files))) = true
  | [] => rfl
  | n :: rest => by
    cases hn : fileMapGet files n with
    | none =>
      simp only [List.filterMap_cons, hn, Option.map_none']
      exact topicNodes_sound files rest
    | some f =>
      have hf := fileMapGet_spec files n f hn
      simp only [List.filterMap_cons, hn, Option.map_some', cloneTree, List.all_cons,
        decide_eq_true_eq, Bool.and_eq_true]
      exact ⟨hf.1, topicNodes_sound files rest⟩

theorem buildTopics_sound (sfx : Nat → String) (now : Int) (files : List FileNode) :
    ∀ (mapping : List (String × List String)) (k : Nat) (handled : List String),
    ((buildTopics sfx now files mapping k handled).1.all
        (fun d => d.childrenD.all (fun g => decide (g ∈ files)))) = true
  | [], _, _ => rfl
  | (topic, ns) :: rest, k, handled => by
    by_cases h : (ns.filterMap (fun n => (fileMapGet files n).map cloneTree)).isEmpty = true
    · simp only [buildTopics, h, if_true]
      exact buildTopics_sound sfx now files rest k _
    · simp only [buildTopics, h, Bool.false_eq_true, if_false, List.all_cons,
        Bool.and_eq_true]
      refine ⟨?_, buildTopics_sound sfx now files rest (k + 1) _⟩
      have hch : (createDirectory (sfx k) now topic
          (ns.filterMap (fun n => (fileMapGet files n).map cloneTree))).childrenD =
          ns.filterMap (fun n => (fileMapGet files n).map cloneTree) := rfl
      rw [hch]
      exact topicNodes_sound files ns


/-- The topic bucket directories of one `applyTopic` run. -/
def topicBuckets (sfx : Nat → String) (now : Int) (mapping : List (String × List String))
    (files : List FileNode) : List FileNode :=
  (buildTopics sfx now files mapping 0 []).1

/-- The handled-name set of one `applyTopic` run. -/
def topicHandled (sfx : Nat → String) (now : Int) (mapping : List (String × List String))
    (files : List FileNode) : List String :=
  (buildTopics sfx now files mapping 0 []).2.1

/-- The leftover (never handled) input files of one `applyTopic` run. -/
def topicLeftovers (sfx : Nat → String) (now : Int) (mapping : List (String × List String))
    (files : List FileNode) : List FileNode :=
  files.filter (fun f => !((topicHandled sfx now mapping files).contains f.name))

/-- The trailing `Uncategorized` singleton (or nothing) of one
`applyTopic` run. -/
def uncategorizedTail (sfx : Nat → String) (now : Int)
    (mapping : List (String × List String)) (files : List FileNode) : List FileNode :=
  if (topicLeftovers sfx now mapping files).isEmpty then []
  else [createDirectory (sfx (buildTopics sfx now files mapping 0 []).2.2) now
    "Uncategorized" ((topicLeftovers sfx now mapping files).map cloneTree)]

theorem applyTopic_childrenD (sfx : Nat → String) (now : Int)
    (mapping : List (String × List String)) (root : FileNode) :
    (applyTopic sfx now mapping root).childrenD =
      topicBuckets sfx now mapping (flattenFiles root) ++
        uncategorizedTail sfx now mapping (flattenFiles root) := rfl

theorem uncategorizedTail_childrenD (sfx : Nat → String) (now : Int)
    (mapping : List (String × List String)) (files : List FileNode) (u : FileNode)
    (hu : u ∈ uncategorizedTail sfx now mapping files) :
    u.childrenD = topicLeftovers sfx now mapping files ∧ u.name = "Uncategorized" := by
  rw [uncategorizedTail] at hu
  split at hu
  · exact absurd hu (List.not_mem_nil u)
  · rcases List.mem_singleton.1 hu with rfl
    constructor
    · show (topicLeftovers sfx now mapping files).map cloneTree = _
      exact map_cloneTree _
    · rfl

/-- C5 (amended): for the Topic strategy, (i) unconditionally, every
node placed in any output bucket (`Uncategorized` included) is one of
the flattened input files, so classifier filenames matching no input
filename place nothing; (ii) an input filename appears in exactly as
many topic buckets as there are topic lists mentioning it — one clone
per mentioning list — plus a trailing `Uncategorized` occurrence
exactly when no list mentions it: hence exactly one bucket when it is
mentioned in at most one topic list, and a filename repeated across
topic lists is cloned into each such bucket; (iii) an input filename
mentioned in no topic list lands in the trailing `Uncategorized`
directory. -/
theorem c5_topic_partition (sfx : Nat → String) (now : Int)
    (mapping : List (String × List String)) (root : FileNode) :
    (((applyTopic sfx now mapping root).childrenD.all
        (fun d => d.childrenD.all (fun g => decide (g ∈ flattenFiles root)))) = true) ∧
    (∀ nm f0, fileMapGet (flattenFiles root) nm = some f0 →
      ((applyTopic sfx now mapping root).childrenD.countP
          (fun d => d.childrenD.any (fun g => g.name == nm))) =
        mapping.countP (fun e => e.2.contains nm) +
          (if mapping.countP (fun e => e.2.contains nm) = 0 then 1 else 0)) ∧
    (∀ nm f0, fileMapGet (flattenFiles root) nm = some f0 →
      mapping.countP (fun e => e.2.contains nm) = 0 →
      ∃ u, (applyTopic sfx now mapping root).childrenD.getLast? = some u ∧
        u.name = "Uncategorized" ∧ (u.childrenD.any (fun g => g.name == nm)) = true) := by
  have hsound : ((applyTopic sfx now mapping root).childrenD.all
      (fun d => d.childrenD.all (fun g => decide (g ∈ flattenFiles root)))) = true := by
    rw [applyTopic_childrenD, List.all_append, Bool.and_eq_true]
    constructor
    · exact buildTopics_sound sfx now (flattenFiles root) mapping 0 []
    · rw [List.all_eq_true]
      intro u hu
      rw [(uncategorizedTail_childrenD sfx now mapping (flattenFiles root) u hu).1,
        List.all_eq_true]
      intro g hg
      simp only [decide_eq_true_eq]
      exact (List.mem_filter.1 hg).1
  have key : ∀ nm f0, fileMapGet (flattenFiles root) nm = some f0 →
      (((applyTopic sfx now mapping root).childrenD.countP
          (fun d => d.childrenD.any (fun g => g.name == nm))) =
        mapping.countP (fun e => e.2.contains nm) +
          (if mapping.countP (fun e => e.2.contains nm) = 0 then 1 else 0)) ∧
      (mapping.countP (fun e => e.2.contains nm) = 0 →
        ∃ u, (applyTopic sfx now mapping root).childrenD.getLast? = some u ∧
          u.name = "Uncategorized" ∧ (u.childrenD.any (fun g => g.name == nm)) = true) := by
    intro nm f0 hnm
    have hsome : (fileMapGet (flattenFiles root) nm).isSome = true := by
      rw [hnm]
      rfl
    have hf0 := fileMapGet_spec (flattenFiles root) nm f0 hnm
    have hcount : ((topicBuckets sfx now mapping (flattenFiles root)).countP
        (fun d => d.childrenD.any (fun g => g.name == nm))) =
        mapping.countP (fun e => e.2.contains nm) :=
      buildTopics_count sfx now (flattenFiles root) nm hsome mapping 0 []
    have hcontains : ((topicHandled sfx now mapping (flattenFiles root)).contains nm)
        = mapping.any (fun e => e.2.contains nm) := by
      rw [topicHandled, buildTopics_handled sfx now (flattenFiles root) mapping 0 [],
        List.nil_append]
      exact matched_contains (flattenFiles root) nm hsome mapping
    by_cases hz : mapping.countP (fun e => e.2.contains nm) = 0
    · have hany : mapping.any (fun e => e.2.contains nm) = false := by
        cases ha : mapping.any (fun e => e.2.contains nm) with
        | false => rfl
        | true =>
          rcases List.any_eq_true.1 ha with ⟨e, he, hp⟩
          exact absurd hp (List.countP_eq_zero.1 hz e he)
      have hcon : ((topicHandled sfx now mapping (flattenFiles root)).contains nm) = false := by
        rw [hcontains, hany]
      have hmemleft : f0 ∈ topicLeftovers sfx now mapping (flattenFiles root) := by
        refine List.mem_filter.2 ⟨hf0.1, ?_⟩
        rw [hf0.2, hcon]
        rfl
      have hne : (topicLeftovers sfx now mapping (flattenFiles root)).isEmpty = false := by
        cases hie : (topicLeftovers sfx now mapping (flattenFiles root)).isEmpty with
        | false => rfl
        | true =>
          rw [List.isEmpty_iff.1 hie] at hmemleft
          exact absurd hmemleft (List.not_mem_nil f0)
      have htail : uncategorizedTail sfx now mapping (flattenFiles root) =
          [createDirectory (sfx (buildTopics sfx now (flattenFiles root) mapping 0 []).2.2) now
            "Uncategorized" ((topicLeftovers sfx now mapping (flattenFiles root)).map cloneTree)] := by
        rw [uncategorizedTail, hne]
        rfl
      have humem : (createDirectory (sfx (buildTopics sfx now (flattenFiles root) mapping 0 []).2.2) now
          "Uncategorized" ((topicLeftovers sfx now mapping (flattenFiles root)).map cloneTree))
          ∈ uncategorizedTail sfx now mapping (flattenFiles root) := by
        rw [htail]
        exact List.mem_singleton.2 rfl
      have huch := uncategorizedTail_childrenD sfx now mapping (flattenFiles root) _ humem
      have hanyu : (((createDirectory (sfx (buildTopics sfx now (flattenFiles root) mapping 0 []).2.2) now
          "Uncategorized" ((topicLeftovers sfx now mapping (flattenFiles root)).map cloneTree)).childrenD.any
            (fun g => g.name == nm))) = true := by
        rw [huch.1]
        refine List.any_eq_true.2 ⟨f0, hmemleft, ?_⟩
        rw [hf0.2]
        exact beq_self_eq_true nm
      constructor
      · rw [applyTopic_childrenD, List.countP_append, hcount, if_pos hz, hz, htail,
          List.countP_cons, List.countP_nil, hanyu]
        decide
      · intro _
        refine ⟨_, ?_, huch.2, hanyu⟩
        rw [applyTopic_childrenD, htail]
        exact List.getLast?_concat _
    · have hany : mapping.any (fun e => e.2.contains nm) = true := by
        cases ha : mapping.any (fun e => e.2.contains nm) with
        | true => rfl
        | false =>
          have hz0 : mapping.countP (fun e => e.2.contains nm) = 0 := by
            refine List.countP_eq_zero.2 ?_
            intro e he hp
            have hcontra : mapping.any (fun e => e.2.contains nm) = true :=
              List.any_eq_true.2 ⟨e, he, hp⟩
            rw [ha] at hcontra
            exact Bool.noConfusion hcontra
          exact absurd hz0 hz
      have hcon : ((topicHandled sfx now mapping (flattenFiles root)).contains nm) = true := by
        rw [hcontains, hany]
      have hleftnone : ((topicLeftovers sfx now mapping (flattenFiles root)).any
          (fun g => g.name == nm)) = false := by
        cases ha : ((topicLeftovers sfx now mapping (flattenFiles root)).any
            (fun g => g.name == nm)) with
        | false => rfl
        | true =>
          rcases List.any_eq_true.1 ha with ⟨g, hg, hb⟩
          have hgf := List.mem_filter.1 hg
          have hgname : g.name = nm := by simpa using hb
          rw [hgname, hcon] at hgf
          exact absurd hgf.2 (by simp)
      have huncat : ((uncategorizedTail sfx now mapping (flattenFiles root)).countP
          (fun d => d.childrenD.any (fun g => g.name == nm))) = 0 := by
        rw [uncategorizedTail]
        split
        · rfl
        · rw [List.countP_cons, List.countP_nil]
          have humem : (createDirectory (sfx (buildTopics sfx now (flattenFiles root) mapping 0 []).2.2) now
              "Uncategorized" ((topicLeftovers sfx now mapping (flattenFiles root)).map cloneTree))
              ∈ uncategorizedTail sfx now mapping (flattenFiles root) := by
            rw [uncategorizedTail]
            split
            · rename_i hie hie2
              exact absurd hie2 hie
            · exact List.mem_singleton.2 rfl
          rw [(uncategorizedTail_childrenD sfx now mapping (flattenFiles root) _ humem).1,
            hleftnone]
          rfl
      constructor
      · rw [applyTopic_childrenD, List.countP_append, hcount, huncat, if_neg hz]
      · intro hz0
        exact absurd hz0 hz
  exact ⟨hsound, fun nm f0 hnm => (key nm f0 hnm).1, fun nm f0 hnm => (key nm f0 hnm).2⟩

/-- C5 counterexample: with a single input file `x.txt` and a
classifier reply that lists `x.txt` under two topics, the file is
cloned into both buckets, so it does not appear in exactly one output
bucket as claimed. -/
theorem c5_counterexample :
    fileMapGet (flattenFiles (FileNode.mk "/r" "r" .directory 1 0
        (some [FileNode.mk "/r/x.txt" "x.txt" .file 1 0 none]))) "x.txt" =
      some (FileNode.mk "/r/x.txt" "x.txt" .file 1 0 none) ∧
    ((applyTopic (fun _ => "s") 0 [("A", ["x.txt"]), ("B", ["x.txt"])]
        (FileNode.mk "/r" "r" .directory 1 0
          (some [FileNode.mk "/r/x.txt" "x.txt" .file 1 0 none]))).childrenD.countP
      (fun d => d.childrenD.any (fun g => g.name == "x.txt"))) = 2 := by
  exact ⟨rfl, rfl⟩

/-- Witness for `c5_topic_partition`: with input files `x.txt` and
`y.txt` and a classifier reply listing `x.txt` under two topics,
`x.txt` is cloned into both buckets (count 2) and `y.txt` lands in the
trailing `Uncategorized` directory. -/
theorem c5_topic_partition_witness :
    ((applyTopic (fun _ => "s") 0 [("A", ["x.txt"]), ("B", ["x.txt"])]
        (FileNode.mk "/r" "r" .directory 1 0
          (some [FileNode.mk "/r/x.txt" "x.txt" .file 1 0 none,
            FileNode.mk "/r/y.txt" "y.txt" .file 1 0 none]))).childrenD.countP
      (fun d => d.childrenD.any (fun g => g.name == "x.txt"))) = 2 ∧
    (∃ u, (applyTopic (fun _ => "s") 0 [("A", ["x.txt"]), ("B", ["x.txt"])]
        (FileNode.mk "/r" "r" .directory 1 0
          (some [FileNode.mk "/r/x.txt" "x.txt" .file 1 0 none,
            FileNode.mk "/r/y.txt" "y.txt" .file 1 0 none]))).childrenD.getLast? = some u ∧
      u.name = "Uncategorized" ∧ (u.childrenD.any (fun g => g.name == "y.txt")) = true) := by
  have h := c5_topic_partition (fun _ => "s") 0 [("A", ["x.txt"]), ("B", ["x.txt"])]
    (FileNode.mk "/r" "r" .directory 1 0
      (some [FileNode.mk "/r/x.txt" "x.txt" .file 1 0 none,
        FileNode.mk "/r/y.txt" "y.txt" .file 1 0 none]))
  refine ⟨?_, h.2.2 "y.txt" (FileNode.mk "/r/y.txt" "y.txt" .file 1 0 none) rfl (by decide)⟩
  have h2 := h.2.1 "x.txt" (FileNode.mk "/r/x.txt" "x.txt" .file 1 0 none) rfl
  rw [h2]
  decide

theorem lookupMonth_addMonth (m' : String) (f : FileNode) :
    ∀ (ms : MonthGroups) (m : String),
    lookupMonth (addMonth ms m' f) m =
      lookupMonth ms m ++ (if m = m' then [f] else [])
  | [], m => by
    by_cases h : m' = m
    · subst h
      simp [addMonth, lookupMonth, List.find?, beq_self_eq_true]
    · have hb : (m' == m) = false := beq_eq_false_iff_ne.2 h
      have hmm : ¬m = m' := fun e => h e.symm
      simp [addMonth, lookupMonth, List.find?, hb, hmm]
  | (k, fs) :: rest, m => by
    by_cases hk : k = m'
    · subst hk
      by_cases hm : k = m
      · subst hm
        simp [addMonth, lookupMonth, List.find?, beq_self_eq_true]
      · have hb : (k == m) = false := beq_eq_false_iff_ne.2 hm
        have hmm : ¬m = k := fun e => hm e.symm
        simp [addMonth, lookupMonth, List.find?, hb, hmm]
    · by_cases hm : k = m
      · subst hm
        have hmm : ¬k = m' := hk
        simp [addMonth, hk, lookupMonth, List.find?, beq_self_eq_true,
          fun e => hk (e : k = m')]
      · have hb : (k == m) = false := beq_eq_false_iff_ne.2 hm
        simp only [addMonth, if_neg hk]
        simp only [lookupMonth, List.find?, hb]
        have ih := lookupMonth_addMonth m' f rest m
        simp only [lookupMonth] at ih
        exact ih

theorem lookupYear_addYear (y' m' : String) (f : FileNode) :
    ∀ (g : YearGroups) (y : String),
    lookupYear (addYear g y' m' f) y =
      if y = y' then addMonth (lookupYear g y') m' f else lookupYear g y
  | [], y => by
    by_cases h : y' = y
    · subst h
      simp [addYear, lookupYear, List.find?, beq_self_eq_true, addMonth]
    · have hb : (y' == y) = false := beq_eq_false_iff_ne.2 h
      have hmm : ¬y = y' := fun e => h e.symm
      simp [addYear, lookupYear, List.find?, hb, hmm]
  | (k, ms) :: rest, y => by
    by_cases hk : k = y'
    · subst hk
      by_cases hm : k = y
      · subst hm
        simp [addYear, lookupYear, List.find?, beq_self_eq_true]
      · have hb : (k == y) = false := beq_eq_false_iff_ne.2 hm
        have hmm : ¬y = k := fun e => hm e.symm
        simp [addYear, lookupYear, List.find?, hb, hmm]
    · by_cases hm : k = y
      · subst hm
        simp [addYear, hk, lookupYear, List.find?, beq_self_eq_true,
          fun e => hk (e : k = y')]
      · have hb : (k == y) = false := beq_eq_false_iff_ne.2 hm
        have hbk : (k == y') = false := beq_eq_false_iff_ne.2 hk
        simp only [addYear, if_neg hk]
        simp only [lookupYear, List.find?, hb, hbk]
        have ih := lookupYear_addYear y' m' f rest y
        simp only [lookupYear] at ih
        exact ih

theorem keys_addMonth (m' : String) (f : FileNode) :
    ∀ ms : MonthGroups,
    (addMonth ms m' f).map (fun e => e.1) =
      if m' ∈ ms.map (fun e => e.1) then ms.map (fun e => e.1)
      else ms.map (fun e => e.1) ++ [m']
  | [] => by simp [addMonth]
  | (k, fs) :: rest => by
    by_cases hk : k = m'
    · subst hk
      simp [addMonth]
    · have hne : ¬m' = k := fun e => hk e.symm
      simp only [addMonth, if_neg hk, List.map_cons, List.mem_cons, hne, false_or]
      rw [keys_addMonth m' f rest]
      split
      · rfl
      · rfl

theorem keys_addYear (y' m' : String) (f : FileNode) :
    ∀ g : YearGroups,
    (addYear g y' m' f).map (fun e => e.1) =
      if y' ∈ g.map (fun e => e.1) then g.map (fun e => e.1)
      else g.map (fun e => e.1) ++ [y']
  | [] => by simp [addYear]
  | (k, ms) :: rest => by
    by_cases hk : k = y'
    · subst hk
      simp [addYear]
    · have hne : ¬y' = k := fun e => hk e.symm
      simp only [addYear, if_neg hk, List.map_cons, List.mem_cons, hne, false_or]
      rw [keys_addYear y' m' f rest]
      split
      · rfl
      · rfl

theorem keys_addYear_mem (y' m' : String) (f : FileNode) (g : YearGroups) (y : String) :
    y ∈ (addYear g y' m' f).map (fun e => e.1) ↔
      y ∈ g.map (fun e => e.1) ∨ y = y' := by
  rw [keys_addYear]
  split
  · rename_i hin
    constructor
    · exact fun h => Or.inl h
    · rintro (h | rfl)
      · exact h
      · exact hin
  · simp

theorem keys_addYear_nodup (y' m' : String) (f : FileNode) (g : YearGroups)
    (h : (g.map (fun e => e.1)).Nodup) : ((addYear g y' m' f).map (fun e => e.1)).Nodup := by
  rw [keys_addYear]
  split
  · exact h
  · rename_i hnin
    simp only [List.nodup_append, List.nodup_singleton, List.mem_singleton]
    refine ⟨h, by simp, ?_⟩
    intro a ha hay
    rcases List.mem_singleton.1 hay with rfl
    exact hnin ha

theorem keys_addMonth_mem (m' : String) (f : FileNode) (ms : MonthGroups) (m : String) :
    m ∈ (addMonth ms m' f).map (fun e => e.1) ↔
      m ∈ ms.map (fun e => e.1) ∨ m = m' := by
  rw [keys_addMonth]
  split
  · rename_i hin
    constructor
    · exact fun h => Or.inl h
    · rintro (h | rfl)
      · exact h
      · exact hin
  · simp

theorem keys_addMonth_nodup (m' : String) (f : FileNode) (ms : MonthGroups)
    (h : (ms.map (fun e => e.1)).Nodup) : ((addMonth ms m' f).map (fun e => e.1)).Nodup := by
  rw [keys_addMonth]
  split
  · exact h
  · rename_i hnin
    simp only [List.nodup_append, List.nodup_singleton, List.mem_singleton]
    refine ⟨h, by simp, ?_⟩
    intro a ha hay
    rcases List.mem_singleton.1 hay with rfl
    exact hnin ha

theorem timeFold_bucket :
    ∀ (files : List FileNode) (g0 : YearGroups) (y m : String),
    lookupMonth (lookupYear
        (files.foldl (fun g f =>
          addYear g (yearStr f.mtime) (monthStr f.mtime) (cloneTree f)) g0) y) m =
      lookupMonth (lookupYear g0 y) m ++
        files.filter (fun f => decide (yearStr f.mtime = y) && decide (monthStr f.mtime = m))
  | [], g0, y, m => by simp
  | f :: fs, g0, y, m => by
    rw [List.foldl_cons, timeFold_bucket fs _ y m, lookupYear_addYear, List.filter_cons]
    by_cases hy : y = yearStr f.mtime
    · rw [if_pos hy, lookupMonth_addMonth]
      by_cases hm : m = monthStr f.mtime
      · rw [if_pos hm]
        have hpred : (decide (yearStr f.mtime = y) && decide (monthStr f.mtime = m)) = true := by
          simp [hy.symm, hm.symm]
        rw [hpred, hy, cloneTree]
        simp
      · rw [if_neg hm]
        have hpred : (decide (yearStr f.mtime = y) && decide (monthStr f.mtime = m)) = false := by
          simp only [Bool.and_eq_false_iff, decide_eq_false_iff_not]
          exact Or.inr (fun e => hm e.symm)
        rw [hpred, hy]
        simp
    · rw [if_neg hy]
      have hpred : (decide (yearStr f.mtime = y) && decide (monthStr f.mtime = m)) = false := by
        simp only [Bool.and_eq_false_iff, decide_eq_false_iff_not]
        exact Or.inl (fun e => hy e.symm)
      rw [hpred]
      simp

theorem timeFold_years_mem :
    ∀ (files : List FileNode) (g0 : YearGroups) (y : String),
    (y ∈ (files.foldl (fun g f =>
        addYear g (yearStr f.mtime) (monthStr f.mtime) (cloneTree f)) g0).map (fun e => e.1)) ↔
      y ∈ g0.map (fun e => e.1) ∨ ∃ f ∈ files, yearStr f.mtime = y
  | [], g0, y => by simp
  | f :: fs, g0, y => by
    rw [List.foldl_cons, timeFold_years_mem fs _ y, keys_addYear_mem]
    constructor
    · rintro ((h | rfl) | ⟨f2, hf2, hy2⟩)
      · exact Or.inl h
      · exact Or.inr ⟨f, List.mem_cons_self f fs, rfl⟩
      · exact Or.inr ⟨f2, List.mem_cons_of_mem f hf2, hy2⟩
    · rintro (h | ⟨f2, hf2, hy2⟩)
      · exact Or.inl (Or.inl h)
      · rcases List.mem_cons.1 hf2 with rfl | hf2
        · exact Or.inl (Or.inr hy2.symm)
        · exact Or.inr ⟨f2, hf2, hy2⟩

theorem timeFold_years_nodup :
    ∀ (files : List FileNode) (g0 : YearGroups),
    (g0.map (fun e => e.1)).Nodup →
    ((files.foldl (fun g f =>
        addYear g (yearStr f.mtime) (monthStr f.mtime) (cloneTree f)) g0).map
          (fun e => e.1)).Nodup
  | [], g0, h => h
  | f :: fs, g0, h => by
    rw [List.foldl_cons]
    exact timeFold_years_nodup fs _ (keys_addYear_nodup _ _ _ g0 h)

theorem timeFold_months_mem :
    ∀ (files : List FileNode) (g0 : YearGroups) (y m : String),
    (m ∈ (lookupYear (files.foldl (fun g f =>
        addYear g (yearStr f.mtime) (monthStr f.mtime) (cloneTree f)) g0) y).map
          (fun e => e.1)) ↔
      m ∈ (lookupYear g0 y).map (fun e => e.1) ∨
        ∃ f ∈ files, yearStr f.mtime = y ∧ monthStr f.mtime = m
  | [], g0, y, m => by simp
  | f :: fs, g0, y, m => by
    rw [List.foldl_cons, timeFold_months_mem fs _ y m, lookupYear_addYear]
    by_cases hy : y = yearStr f.mtime
    · rw [if_pos hy, hy]
      rw [keys_addMonth_mem]
      constructor
      · rintro ((h | rfl) | ⟨f2, hf2, hy2, hm2⟩)
        · exact Or.inl h
        · exact Or.inr ⟨f, List.mem_cons_self f fs, rfl, rfl⟩
        · exact Or.inr ⟨f2, List.mem_cons_of_mem f hf2, hy2, hm2⟩
      · rintro (h | ⟨f2, hf2, hy2, hm2⟩)
        · exact Or.inl (Or.inl h)
        · rcases List.mem_cons.1 hf2 with rfl | hf2
          · exact Or.inl (Or.inr hm2.symm)
          · exact Or.inr ⟨f2, hf2, hy2, hm2⟩
    · rw [if_neg hy]
      constructor
      · rintro (h | ⟨f2, hf2, hy2, hm2⟩)
        · exact Or.inl h
        · exact Or.inr ⟨f2, List.mem_cons_of_mem f hf2, hy2, hm2⟩
      · rintro (h | ⟨f2, hf2, hy2, hm2⟩)
        · exact Or.inl h
        · rcases List.mem_cons.1 hf2 with rfl | hf2
          · exact absurd hy2.symm hy
          · exact Or.inr ⟨f2, hf2, hy2, hm2⟩

theorem timeFold_months_nodup :
    ∀ (files : List FileNode) (g0 : YearGroups),
    (∀ y, ((lookupYear g0 y).map (fun e => e.1)).Nodup) →
    ∀ y, ((lookupYear (files.foldl (fun g f =>
        addYear g (yearStr f.mtime) (monthStr f.mtime) (cloneTree f)) g0) y).map
          (fun e => e.1)).Nodup
  | [], g0, h => h
  | f :: fs, g0, h => by
    rw [List.foldl_cons]
    refine timeFold_months_nodup fs _ ?_
    intro y
    rw [lookupYear_addYear]
    by_cases hy : y = yearStr f.mtime
    · rw [if_pos hy]
      exact keys_addMonth_nodup _ _ _ (h _)
    · rw [if_neg hy]
      exact h y

theorem buildMonthNodes_names (sfx : Nat → String) (now : Int) (ms : MonthGroups) :
    ∀ (ks : List String) (k : Nat),
    (buildMonthNodes sfx now ms k ks).1.map FileNode.name = ks
  | [], _ => rfl
  | m :: rest, k => by
    simp only [buildMonthNodes, List.map_cons]
    rw [buildMonthNodes_names sfx now ms rest (k + 1)]
    rfl

theorem buildMonthNodes_mem (sfx : Nat → String) (now : Int) (ms : MonthGroups) :
    ∀ (ks : List String) (k : Nat),
    ∀ mn ∈ (buildMonthNodes sfx now ms k ks).1,
      mn.name ∈ ks ∧ mn.childrenD = lookupMonth ms mn.name
  | [], _ => by simp [buildMonthNodes]
  | m :: rest, k => by
    intro mn hmn
    simp only [buildMonthNodes, List.mem_cons] at hmn
    rcases hmn with rfl | hmn
    · exact ⟨List.mem_cons_self _ _, rfl⟩
    · have ih := buildMonthNodes_mem sfx now ms rest (k + 1) mn hmn
      exact ⟨List.mem_cons_of_mem m ih.1, ih.2⟩

theorem buildYearNodes_names (sfx : Nat → String) (now : Int) (g : YearGroups) :
    ∀ (ks : List String) (k : Nat),
    (buildYearNodes sfx now g k ks).1.map FileNode.name = ks
  | [], _ => rfl
  | y :: rest, k => by
    simp only [buildYearNodes, List.map_cons]
    rw [buildYearNodes_names sfx now g rest _]
    rfl

theorem buildYearNodes_mem (sfx : Nat → String) (now : Int) (g : YearGroups) :
    ∀ (ks : List String) (k : Nat),
    ∀ yn ∈ (buildYearNodes sfx now g k ks).1,
      yn.name ∈ ks ∧
      yn.childrenD.map FileNode.name =
        (sortStrs ((lookupYear g yn.name).map (fun e => e.1))).reverse ∧
      ∀ mn ∈ yn.childrenD, mn.childrenD = lookupMonth (lookupYear g yn.name) mn.name
  | [], _ => by simp [buildYearNodes]
  | y :: rest, k => by
    intro yn hyn
    simp only [buildYearNodes, List.mem_cons] at hyn
    rcases hyn with rfl | hyn
    · refine ⟨List.mem_cons_self _ _, ?_, ?_⟩
      · show (buildMonthNodes sfx now (lookupYear g y) k
            ((sortStrs ((lookupYear g y).map (fun e => e.1))).reverse)).1.map FileNode.name = _
        exact buildMonthNodes_names sfx now _ _ k
      · intro mn hmn
        exact (buildMonthNodes_mem sfx now _ _ k mn hmn).2
    · have ih := buildYearNodes_mem sfx now g rest _ yn hyn
      exact ⟨List.mem_cons_of_mem y ih.1, ih.2⟩

/-- C6: the Time strategy groups every descendant file by the year and
zero-padded month of its `modifiedAt` timestamp into a two-level
year/month tree: the year directories are the distinct years of the
input files sorted descending (newest first), the month directories
within each year are that year's distinct months sorted descending,
and each month directory holds exactly the input files with that year
and month, in flattening order. -/
theorem c6_time_grouping (sfx : Nat → String) (now : Int) (root : FileNode) :
    (((applyTime sfx now root).childrenD.map FileNode.name).Pairwise
        (fun a b => strLe b a = true) ∧
      ((applyTime sfx now root).childrenD.map FileNode.name).Nodup ∧
      ∀ y, y ∈ (applyTime sfx now root).childrenD.map FileNode.name ↔
        ∃ f ∈ flattenFiles root, yearStr f.mtime = y) ∧
    (∀ yn ∈ (applyTime sfx now root).childrenD,
      (yn.childrenD.map FileNode.name).Pairwise (fun a b => strLe b a = true) ∧
      (yn.childrenD.map FileNode.name).Nodup ∧
      ∀ m, m ∈ yn.childrenD.map FileNode.name ↔
        ∃ f ∈ flattenFiles root, yearStr f.mtime = yn.name ∧ monthStr f.mtime = m) ∧
    (∀ yn ∈ (applyTime sfx now root).childrenD, ∀ mn ∈ yn.childrenD,
      mn.childrenD = (flattenFiles root).filter
        (fun f => decide (yearStr f.mtime = yn.name) &&
          decide (monthStr f.mtime = mn.name))) := by
  have hdesc : ∀ l : List String,
      ((sortStrs l).reverse).Pairwise (fun a b => strLe b a = true) := by
    intro l
    refine List.pairwise_reverse.2 ?_
    exact sortLe_pairwise strLe strLe_total (fun a b c => strLe_trans) l
  have hnodup : ∀ l : List String, l.Nodup → ((sortStrs l).reverse).Nodup := by
    intro l hl
    exact List.nodup_reverse.2 ((sortLe_perm strLe l).nodup_iff.2 hl)
  have hmemrev : ∀ (l : List String) (a : String), a ∈ (sortStrs l).reverse ↔ a ∈ l := by
    intro l a
    rw [List.mem_reverse, sortStrs, mem_sortLe]
  have hc : (applyTime sfx now root).childrenD =
      (buildYearNodes sfx now (timeGroups (flattenFiles root)) 0
        ((sortStrs ((timeGroups (flattenFiles root)).map (fun e => e.1))).reverse)).1 := rfl
  have hynames : (applyTime sfx now root).childrenD.map FileNode.name =
      (sortStrs ((timeGroups (flattenFiles root)).map (fun e => e.1))).reverse := by
    rw [hc]
    exact buildYearNodes_names sfx now _ _ 0
  have hykeys_nodup : ((timeGroups (flattenFiles root)).map (fun e => e.1)).Nodup :=
    timeFold_years_nodup (flattenFiles root) [] (by simp)
  have hmnodup : ∀ y, ((lookupYear (timeGroups (flattenFiles root)) y).map
      (fun e => e.1)).Nodup :=
    timeFold_months_nodup (flattenFiles root) [] (by intro y; simp [lookupYear, List.find?])
  refine ⟨⟨?_, ?_, ?_⟩, ?_, ?_⟩
  · rw [hynames]
    exact hdesc _
  · rw [hynames]
    exact hnodup _ hykeys_nodup
  · intro y
    rw [hynames, hmemrev]
    rw [timeGroups, timeFold_years_mem (flattenFiles root) [] y]
    simp
  · intro yn hyn
    rw [hc] at hyn
    have h := buildYearNodes_mem sfx now _ _ 0 yn hyn
    refine ⟨?_, ?_, ?_⟩
    · rw [h.2.1]
      exact hdesc _
    · rw [h.2.1]
      exact hnodup _ (hmnodup yn.name)
    · intro m
      rw [h.2.1, hmemrev]
      rw [timeGroups, timeFold_months_mem (flattenFiles root) [] yn.name m]
      simp [lookupYear, List.find?]
  · intro yn hyn mn hmn
    rw [hc] at hyn
    have h := buildYearNodes_mem sfx now _ _ 0 yn hyn
    rw [h.2.2 mn hmn]
    rw [timeGroups, timeFold_bucket (flattenFiles root) [] yn.name mn.name]
    simp [lookupYear, lookupMonth, List.find?]

/-- Example file `a.txt`, mtime 2023-05-15T00:00Z. -/
def timeExampleA : FileNode := .mk "/data/a.txt" "a.txt" .file 1 1684108800000 none

/-- Example file `b.txt`, mtime 2024-11-01T00:00Z. -/
def timeExampleB : FileNode := .mk "/data/b.txt" "b.txt" .file 2 1730419200000 none

/-- Example snapshot root `/data` holding `a.txt` and `b.txt`. -/
def timeExampleRoot : FileNode :=
  .mk "/data" "data" .directory 3 0 (some [timeExampleA, timeExampleB])

/-- Witness for `c6_time_grouping` at the spec's round-trip example:
`a.txt` (2023-05) and `b.txt` (2024-11) produce year directories
`2024` before `2023`, and the `2024/11` bucket holds exactly `b.txt`. -/
theorem c6_time_grouping_witness :
    ((applyTime (fun _ => "s") 0 timeExampleRoot).childrenD.map FileNode.name =
      ["2024", "2023"]) ∧
    (FileNode.mk "virtual://11-s" "11" .directory 2 0 (some [timeExampleB])).childrenD =
      (flattenFiles timeExampleRoot).filter
        (fun f => decide (yearStr f.mtime =
            (FileNode.mk "virtual://2024-s" "2024" .directory 2 0
              (some [FileNode.mk "virtual://11-s" "11" .directory 2 0
                (some [timeExampleB])])).name) &&
          decide (monthStr f.mtime =
            (FileNode.mk "virtual://11-s" "11" .directory 2 0 (some [timeExampleB])).name)) := by
  constructor
  · decide
  · exact (c6_time_grouping (fun _ => "s") 0 timeExampleRoot).2.2
      (FileNode.mk "virtual://2024-s" "2024" .directory 2 0
        (some [FileNode.mk "virtual://11-s" "11" .directory 2 0 (some [timeExampleB])]))
      (by decide)
      (FileNode.mk "virtual://11-s" "11" .directory 2 0 (some [timeExampleB]))
      (by decide)

/-- A path segment that survives normalization unchanged: non-empty,
slash-free, and not `.` or `..`. Every segment of a canonical absolute
path (as the scanner produces) has this shape. -/
def goodSeg (s : List Char) : Bool :=
  decide (s ≠ []) && decide ('/' ∉ s) && decide (s ≠ ['.']) && decide (s ≠ ['.', '.'])

theorem splitSlash_ne_nil : ∀ cs : List Char, splitSlash cs ≠ []
  | [] => by simp [splitSlash]
  | c :: cs => by
    by_cases h : c = '/'
    · simp [splitSlash, h]
    · simp only [splitSlash, h, Bool.false_eq_true, if_neg h]
      cases hs : splitSlash cs with
      | nil => simp
      | cons s rest => simp

theorem splitSlash_append : ∀ a b : List Char,
    splitSlash (a ++ '/' :: b) = splitSlash a ++ splitSlash b
  | [], b => by simp [splitSlash]
  | c :: a, b => by
    by_cases h : c = '/'
    · subst h
      show splitSlash ('/' :: (a ++ '/' :: b)) = splitSlash ('/' :: a) ++ splitSlash b
      rw [splitSlash, if_pos rfl, splitSlash_append a b, splitSlash, if_pos rfl]
      rfl
    · show splitSlash (c :: (a ++ '/' :: b)) = splitSlash (c :: a) ++ splitSlash b
      rw [splitSlash, if_neg h, splitSlash_append a b, splitSlash, if_neg h]
      cases hs : splitSlash a with
      | nil => exact absurd hs (splitSlash_ne_nil a)
      | cons s rest => simp

theorem splitSlash_no_slash : ∀ (cs : List Char) (s : List Char),
    s ∈ splitSlash cs → '/' ∉ s
  | [], s => by
    intro hs
    simp only [splitSlash, List.mem_singleton] at hs
    subst hs
    simp
  | c :: cs, s => by
    intro hs
    by_cases h : c = '/'
    · simp only [splitSlash, if_pos h, List.mem_cons] at hs
      rcases hs with rfl | hs
      · simp
      · exact splitSlash_no_slash cs s hs
    · simp only [splitSlash, if_neg h] at hs
      cases hsp : splitSlash cs with
      | nil => exact absurd hsp (splitSlash_ne_nil cs)
      | cons t rest =>
        rw [hsp] at hs
        rcases List.mem_cons.1 hs with rfl | hs
        · intro hmem
          rcases List.mem_cons.1 hmem with hc | hmem
          · exact h hc.symm
          · exact splitSlash_no_slash cs t (by rw [hsp]; exact List.mem_cons_self t rest) hmem
        · exact splitSlash_no_slash cs s (by rw [hsp]; exact List.mem_cons_of_mem t hs)

theorem splitSlash_of_no_slash : ∀ s : List Char, '/' ∉ s → splitSlash s = [s]
  | [], _ => rfl
  | c :: s, h => by
    have hc : c ≠ '/' := fun e => h (e ▸ List.mem_cons_self c s)
    simp only [splitSlash, if_neg hc]
    rw [splitSlash_of_no_slash s (fun hm => h (List.mem_cons_of_mem c hm))]

theorem segsToChars_split : ∀ T : List (List Char), T ≠ [] → (∀ s ∈ T, '/' ∉ s) →
    splitSlash (segsToChars T) = T
  | [], h, _ => absurd rfl h
  | [s], _, hns => by
    rw [segsToChars]
    exact splitSlash_of_no_slash s (hns s (List.mem_singleton.2 rfl))
  | s :: t :: rest, _, hns => by
    show splitSlash (s ++ '/' :: segsToChars (t :: rest)) = s :: t :: rest
    rw [splitSlash_append, splitSlash_of_no_slash s (hns s (List.mem_cons_self _ _)),
      segsToChars_split (t :: rest) (by simp) (fun u hu => hns u (List.mem_cons_of_mem s hu))]
    rfl

theorem strAppend_assoc (a b c : String) : (a ++ b) ++ c = a ++ (b ++ c) := by
  apply String.ext
  simp [String.data_append, List.append_assoc]

theorem foldl_norm_good : ∀ (l : List (List Char)) (acc : List (List Char)),
    (∀ s ∈ l, goodSeg s = true) → l.foldl normStep acc = acc ++ l
  | [], acc, _ => by simp
  | s :: rest, acc, h => by
    have hs := h s (List.mem_cons_self s rest)
    simp only [goodSeg, Bool.and_eq_true, decide_eq_true_eq] at hs
    rw [List.foldl_cons, normStep, if_neg (by tauto), if_neg hs.2,
      foldl_norm_good rest (acc ++ [s]) (fun u hu => h u (List.mem_cons_of_mem s hu))]
    simp

theorem foldl_norm_no_slash : ∀ (l : List (List Char)) (acc : List (List Char)),
    (∀ s ∈ l, '/' ∉ s) → (∀ s ∈ acc, goodSeg s = true) →
    ∀ s ∈ l.foldl normStep acc, goodSeg s = true
  | [], _, _, hacc => hacc
  | s :: rest, acc, h, hacc => by
    rw [List.foldl_cons, normStep]
    by_cases h1 : s = [] ∨ s = ['.']
    · rw [if_pos h1]
      exact foldl_norm_no_slash rest acc
        (fun u hu => h u (List.mem_cons_of_mem s hu)) hacc
    · rw [if_neg h1]
      by_cases h2 : s = ['.', '.']
      · rw [if_pos h2]
        exact foldl_norm_no_slash rest acc.dropLast
          (fun u hu => h u (List.mem_cons_of_mem s hu))
          (fun u hu => hacc u ((List.dropLast_sublist acc).subset hu))
      · rw [if_neg h2]
        refine foldl_norm_no_slash rest (acc ++ [s])
          (fun u hu => h u (List.mem_cons_of_mem s hu)) ?_
        intro u hu
        rcases List.mem_append.1 hu with hu | hu
        · exact hacc u hu
        · rcases List.mem_singleton.1 hu with rfl
          have hns := h u (List.mem_cons_self u rest)
          simp only [goodSeg, Bool.and_eq_true, decide_eq_true_eq]
          refine ⟨⟨⟨?_, hns⟩, ?_⟩, h2⟩
          · intro he
            exact h1 (Or.inl he)
          · intro he
            exact h1 (Or.inr he)

theorem normSegs_out_good (cs : List Char) :
    ∀ s ∈ normSegs (splitSlash cs), goodSeg s = true := by
  rw [normSegs]
  exact foldl_norm_no_slash (splitSlash cs) []
    (fun s hs => splitSlash_no_slash cs s hs) (by simp)

theorem normSegs_good_no_slash (cs : List Char) (s : List Char)
    (hs : s ∈ normSegs (splitSlash cs)) : '/' ∉ s := by
  have hg := normSegs_out_good cs s hs
  simp only [goodSeg, Bool.and_eq_true, decide_eq_true_eq] at hg
  exact hg.1.1.2

theorem resolve_resolve_append (x y : String) :
    pathResolve (pathResolve x ++ "/" ++ y) = pathResolve (x ++ "/" ++ y) := by
  have hTgood := normSegs_out_good x.data
  have hdata : (pathResolve x ++ "/" ++ y).data =
      '/' :: (segsToChars (normSegs (splitSlash x.data)) ++ '/' :: y.data) := by
    rw [String.data_append, String.data_append]
    show ('/' :: segsToChars (normSegs (splitSlash x.data))) ++ ['/'] ++ y.data = _
    simp
  have hdata2 : (x ++ "/" ++ y).data = x.data ++ '/' :: y.data := by
    rw [String.data_append, String.data_append]
    show x.data ++ ['/'] ++ y.data = _
    simp
  show absPath (normSegs (splitSlash (pathResolve x ++ "/" ++ y).data)) =
    absPath (normSegs (splitSlash (x ++ "/" ++ y).data))
  rw [hdata, hdata2, splitSlash_append]
  rw [show splitSlash ('/' :: (segsToChars (normSegs (splitSlash x.data)) ++ '/' :: y.data)) =
      [] :: splitSlash (segsToChars (normSegs (splitSlash x.data)) ++ '/' :: y.data) from by
    rw [splitSlash, if_pos rfl]]
  rw [splitSlash_append]
  have hS : (splitSlash x.data).foldl normStep [] = normSegs (splitSlash x.data) := rfl
  cases hT : normSegs (splitSlash x.data) with
  | nil =>
    have e1 : ([] :: (splitSlash (segsToChars ([] : List (List Char))) ++ splitSlash y.data))
        = [] :: [] :: splitSlash y.data := rfl
    rw [e1]
    have e2 : normSegs ([] :: [] :: splitSlash y.data) = normSegs (splitSlash y.data) := by
      rw [normSegs, List.foldl_cons, List.foldl_cons, normStep, if_pos (Or.inl rfl),
        normStep, if_pos (Or.inl rfl)]
      rfl
    have e3 : normSegs (splitSlash x.data ++ splitSlash y.data) =
        normSegs (splitSlash y.data) := by
      rw [normSegs, List.foldl_append, hS, hT]
      rfl
    rw [e2, e3]
  | cons t ts =>
    have e1 : splitSlash (segsToChars (t :: ts)) = t :: ts := by
      refine segsToChars_split (t :: ts) (by simp) ?_
      intro u hu
      rw [← hT] at hu
      exact normSegs_good_no_slash x.data u hu
    rw [e1]
    have e2 : normSegs ([] :: ((t :: ts) ++ splitSlash y.data)) =
        (splitSlash y.data).foldl normStep (t :: ts) := by
      rw [normSegs, List.foldl_cons, normStep, if_pos (Or.inl rfl), List.foldl_append,
        foldl_norm_good (t :: ts) [] (by rw [← hT] at *; exact hTgood)]
      rfl
    have e3 : normSegs (splitSlash x.data ++ splitSlash y.data) =
        (splitSlash y.data).foldl normStep (t :: ts) := by
      rw [normSegs, List.foldl_append, hS, hT]
    rw [e2, e3]

theorem resolve_absPath_good (segs : List (List Char))
    (h : ∀ s ∈ segs, goodSeg s = true) : pathResolve (absPath segs) = absPath segs := by
  show absPath (normSegs (splitSlash (absPath segs).data)) = absPath segs
  rw [show (absPath segs).data = '/' :: segsToChars segs from rfl]
  rw [show splitSlash ('/' :: segsToChars segs) = [] :: splitSlash (segsToChars segs) from by
    rw [splitSlash, if_pos rfl]]
  cases segs with
  | nil =>
    rfl
  | cons t ts =>
    rw [segsToChars_split (t :: ts) (by simp) (fun s hs => by
      have hg := h s hs
      simp only [goodSeg, Bool.and_eq_true, decide_eq_true_eq] at hg
      exact hg.1.1.2)]
    rw [normSegs, List.foldl_cons, normStep, if_pos (Or.inl rfl),
      foldl_norm_good (t :: ts) [] h]
    rfl

theorem pathResolve_idem (x : String) : pathResolve (pathResolve x) = pathResolve x :=
  resolve_absPath_good (normSegs (splitSlash x.data)) (normSegs_out_good x.data)

theorem absPath_join (segs : List (List Char)) (na : String)
    (hsegs : ∀ s ∈ segs, goodSeg s = true) (hna : goodSeg na.data = true) :
    pathJoin (absPath segs) na = absPath (segs ++ [na.data]) := by
  have hnoslash : '/' ∉ na.data := by
    simp only [goodSeg, Bool.and_eq_true, decide_eq_true_eq] at hna
    exact hna.1.1.2
  show absPath (normSegs (splitSlash (absPath segs ++ "/" ++ na).data)) = _
  have hdata : (absPath segs ++ "/" ++ na).data =
      '/' :: (segsToChars segs ++ '/' :: na.data) := by
    rw [String.data_append, String.data_append]
    show ('/' :: segsToChars segs) ++ ['/'] ++ na.data = _
    simp
  rw [hdata]
  rw [show splitSlash ('/' :: (segsToChars segs ++ '/' :: na.data)) =
      [] :: splitSlash (segsToChars segs ++ '/' :: na.data) from by
    rw [splitSlash, if_pos rfl]]
  rw [splitSlash_append, splitSlash_of_no_slash na.data hnoslash]
  cases segs with
  | nil =>
    have e1 : ([] :: (splitSlash (segsToChars ([] : List (List Char))) ++ [na.data]))
        = [] :: [] :: [na.data] := rfl
    rw [e1, normSegs, List.foldl_cons, List.foldl_cons, normStep, if_pos (Or.inl rfl),
      normStep, if_pos (Or.inl rfl)]
    rw [foldl_norm_good [na.data] [] (by
      intro s hs
      rcases List.mem_singleton.1 hs with rfl
      exact hna)]
  | cons t ts =>
    rw [segsToChars_split (t :: ts) (by simp) (fun s hs => by
      have hg := hsegs s hs
      simp only [goodSeg, Bool.and_eq_true, decide_eq_true_eq] at hg
      exact hg.1.1.2)]
    rw [normSegs, List.foldl_cons, normStep, if_pos (Or.inl rfl)]
    rw [show ((t :: ts) ++ [na.data] : List (List Char)) =
      (t :: ts) ++ [na.data] from rfl]
    rw [foldl_norm_good ((t :: ts) ++ [na.data]) [] (by
      intro s hs
      rcases List.mem_append.1 hs with hs | hs
      · exact hsegs s hs
      · rcases List.mem_singleton.1 hs with rfl
        exact hna)]
    rfl

/-- Join a list of names with `/` separators. -/
def joinNames : List String → String
  | [] => ""
  | [x] => x
  | x :: rest => x ++ "/" ++ joinNames rest

/-- The destination a file should reach per the specification's words:
the original root path extended by the names of the enclosing proposed
directory nodes, then the file's name, resolved/normalized. -/
def oneShotDest (rootPath : String) (dirs : List String) (fname : String) : String :=
  pathResolve (rootPath ++ "/" ++ joinNames (dirs ++ [fname]))

theorem joinNames_split : ∀ (dirs : List String) (a b : String),
    joinNames (dirs ++ [a ++ "/" ++ b]) = joinNames (dirs ++ [a, b])
  | [], a, b => by
    simp [joinNames]
  | [d], a, b => by
    simp only [List.cons_append, List.nil_append, joinNames]
  | d :: d2 :: dirs, a, b => by
    simp only [List.cons_append, joinNames, List.append_eq]
    exact congrArg (fun t => d ++ "/" ++ t) (joinNames_split (d2 :: dirs) a b)

theorem dest_shift (rootPath : String) (dirs : List String) (na fname : String) :
    oneShotDest rootPath dirs (na ++ "/" ++ fname) =
      oneShotDest rootPath (dirs ++ [na]) fname := by
  rw [oneShotDest, oneShotDest, joinNames_split dirs na fname]
  rw [show (dirs ++ [na]) ++ [fname] = dirs ++ [na, fname] from by simp]

theorem ctx_step (ctx rootPath : String) (dirs : List String) (na : String)
    (H : ∀ fname, pathResolve (ctx ++ "/" ++ fname) = oneShotDest rootPath dirs fname) :
    ∀ fname, pathResolve (pathJoin ctx na ++ "/" ++ fname) =
      oneShotDest rootPath (dirs ++ [na]) fname := by
  intro fname
  have h1 : pathJoin ctx na = pathResolve (ctx ++ "/" ++ na) := rfl
  rw [h1, resolve_resolve_append (ctx ++ "/" ++ na) fname]
  rw [show ctx ++ "/" ++ na ++ "/" ++ fname = ctx ++ "/" ++ (na ++ "/" ++ fname) from by
    apply String.ext
    simp [String.data_append]]
  rw [H (na ++ "/" ++ fname), dest_shift]

mutual
/-- Specification-side collection (following the specification's words
rather than the code): every file node of the proposed tree paired
with the list of names of its enclosing proposed directory nodes. -/
def specFilesOne : FileNode → List String → List (List String × FileNode)
  | .mk p na t s m c, dirs =>
    match t with
    | .file => [(dirs, .mk p na .file s m c)]
    | .directory =>
      match c with
      | some cs => specFilesList cs (dirs ++ [na])
      | none => []

/-- Specification-side collection over a list of sibling nodes. -/
def specFilesList : List FileNode → List String → List (List String × FileNode)
  | [], _ => []
  | x :: xs, dirs => specFilesOne x dirs ++ specFilesList xs dirs
end

/-- Specification-side move decision for one collected file: emit a
move exactly when the resolved original path differs from the
one-shot destination. -/
def specOp (rootPath : String) (e : List String × FileNode) : Option FileOperation :=
  if pathResolve e.2.path ≠ oneShotDest rootPath e.1 e.2.name then
    some ⟨.move, e.2.path, oneShotDest rootPath e.1 e.2.name⟩
  else none

/-- Specification-side reading of the diff contract, built from the
specification's words: walk the proposed root's children collecting
(enclosing-directory-names, file) pairs, and emit one move per file
whose resolved real path differs from the destination built in one
shot from the original root path and the collected names. -/
def specMoves (rootPath : String) (root : FileNode) : List FileOperation :=
  (match root.children with
   | some cs => specFilesList cs []
   | none => []).filterMap (specOp rootPath)

theorem diffTraverse_spec_pair :
    (∀ n : FileNode, ∀ (ctx rootPath : String) (dirs : List String),
      (∀ fname, pathResolve (ctx ++ "/" ++ fname) = oneShotDest rootPath dirs fname) →
      diffTraverse n ctx = (specFilesOne n dirs).filterMap (specOp rootPath)) ∧
    (∀ l : List FileNode, ∀ (ctx rootPath : String) (dirs : List String),
      (∀ fname, pathResolve (ctx ++ "/" ++ fname) = oneShotDest rootPath dirs fname) →
      diffTraverseList l ctx = (specFilesList l dirs).filterMap (specOp rootPath)) := by
  have hfile : ∀ (pa na : String) (sz : Nat) (mt : Int)
      (c : Option (List FileNode)) (ctx rootPath : String) (dirs : List String),
      (∀ fname, pathResolve (ctx ++ "/" ++ fname) = oneShotDest rootPath dirs fname) →
      diffTraverse (.mk pa na .file sz mt c) ctx =
        (specFilesOne (.mk pa na .file sz mt c) dirs).filterMap (specOp rootPath) := by
    intro pa na sz mt c ctx rootPath dirs H
    have hdest : pathJoin ctx na = oneShotDest rootPath dirs na := H na
    have hresdest : pathResolve (pathJoin ctx na) = pathJoin ctx na :=
      pathResolve_idem (ctx ++ "/" ++ na)
    show (if pathResolve pa ≠ pathResolve (pathJoin ctx na) then
        [(⟨OpType.move, pa, pathJoin ctx na⟩ : FileOperation)] else ([] : List FileOperation)) = _
    rw [hresdest, hdest]
    by_cases hcond : pathResolve pa ≠ oneShotDest rootPath dirs na
    · rw [if_pos hcond]
      simp only [specFilesOne, List.filterMap_cons, List.filterMap_nil, specOp,
        FileNode.path, FileNode.name]
      rw [if_pos hcond]
    · rw [if_neg hcond]
      simp only [specFilesOne, List.filterMap_cons, List.filterMap_nil, specOp,
        FileNode.path, FileNode.name]
      rw [if_neg hcond]
  have H1 : ∀ (pa na : String) (t : NodeType) (sz : Nat) (mt : Int),
      ∀ (ctx rootPath : String) (dirs : List String),
      (∀ fname, pathResolve (ctx ++ "/" ++ fname) = oneShotDest rootPath dirs fname) →
      diffTraverse (.mk pa na t sz mt none) ctx =
        (specFilesOne (.mk pa na t sz mt none) dirs).filterMap (specOp rootPath) := by
    intro pa na t sz mt ctx rootPath dirs H
    cases t with
    | file => exact hfile pa na sz mt none ctx rootPath dirs H
    | directory => rfl
  have H2 : ∀ (pa na : String) (t : NodeType) (sz : Nat) (mt : Int)
      (cs : List FileNode),
      (∀ (ctx rootPath : String) (dirs : List String),
        (∀ fname, pathResolve (ctx ++ "/" ++ fname) = oneShotDest rootPath dirs fname) →
        diffTraverseList cs ctx = (specFilesList cs dirs).filterMap (specOp rootPath)) →
      ∀ (ctx rootPath : String) (dirs : List String),
      (∀ fname, pathResolve (ctx ++ "/" ++ fname) = oneShotDest rootPath dirs fname) →
      diffTraverse (.mk pa na t sz mt (some cs)) ctx =
        (specFilesOne (.mk pa na t sz mt (some cs)) dirs).filterMap (specOp rootPath) := by
    intro pa na t sz mt cs ih ctx rootPath dirs H
    cases t with
    | file => exact hfile pa na sz mt (some cs) ctx rootPath dirs H
    | directory =>
      show diffTraverseList cs (pathJoin ctx na) = _
      rw [ih (pathJoin ctx na) rootPath (dirs ++ [na]) (ctx_step ctx rootPath dirs na H)]
      rfl
  have Hnil : ∀ (ctx rootPath : String) (dirs : List String),
      (∀ fname, pathResolve (ctx ++ "/" ++ fname) = oneShotDest rootPath dirs fname) →
      diffTraverseList [] ctx = (specFilesList [] dirs).filterMap (specOp rootPath) := by
    intro ctx rootPath dirs H
    rfl
  have Hcons : ∀ (n : FileNode) (rest : List FileNode),
      (∀ (ctx rootPath : String) (dirs : List String),
        (∀ fname, pathResolve (ctx ++ "/" ++ fname) = oneShotDest rootPath dirs fname) →
        diffTraverse n ctx = (specFilesOne n dirs).filterMap (specOp rootPath)) →
      (∀ (ctx rootPath : String) (dirs : List String),
        (∀ fname, pathResolve (ctx ++ "/" ++ fname) = oneShotDest rootPath dirs fname) →
        diffTraverseList rest ctx = (specFilesList rest dirs).filterMap (specOp rootPath)) →
      ∀ (ctx rootPath : String) (dirs : List String),
      (∀ fname, pathResolve (ctx ++ "/" ++ fname) = oneShotDest rootPath dirs fname) →
      diffTraverseList (n :: rest) ctx =
        (specFilesList (n :: rest) dirs).filterMap (specOp rootPath) := by
    intro n rest ihn ihr ctx rootPath dirs H
    show diffTraverse n ctx ++ diffTraverseList rest ctx = _
    rw [ihn ctx rootPath dirs H, ihr ctx rootPath dirs H]
    show _ = (specFilesOne n dirs ++ specFilesList rest dirs).filterMap (specOp rootPath)
    rw [List.filterMap_append]
  exact ⟨fun n => fileNodeRec H1 H2 Hnil Hcons n, fun l => fileListRec H1 H2 Hnil Hcons l⟩

mutual
/-- Checks that a proposed node still sits exactly where the original
layout put it: its name is a plain path segment, its `path` is the
parent context extended by its name, and its children (if any) sit
below it in the same way. A freshly scanned snapshot re-derived with
no reorganization has this shape. -/
def snapshotNodeB : FileNode → List (List Char) → Bool
  | .mk p na _ _ _ c, segs =>
    goodSeg na.data && decide (p = absPath (segs ++ [na.data])) &&
      (match c with
       | some cs => snapshotListB cs (segs ++ [na.data])
       | none => true)

/-- `snapshotNodeB` over a list of siblings. -/
def snapshotListB : List FileNode → List (List Char) → Bool
  | [], _ => true
  | x :: xs, segs => snapshotNodeB x segs && snapshotListB xs segs
end

/-- `snapshotNodeB` for the children of the proposed root against the
scan root's segments. -/
def snapshotRootB (root : FileNode) (segs0 : List (List Char)) : Bool :=
  match root.children with
  | some cs => snapshotListB cs segs0
  | none => true

theorem diffTraverse_snapshot_pair :
    (∀ n : FileNode, ∀ segs : List (List Char),
      (∀ s ∈ segs, goodSeg s = true) → snapshotNodeB n segs = true →
      diffTraverse n (absPath segs) = []) ∧
    (∀ l : List FileNode, ∀ segs : List (List Char),
      (∀ s ∈ segs, goodSeg s = true) → snapshotListB l segs = true →
      diffTraverseList l (absPath segs) = []) := by
  have hsegs1 : ∀ (segs : List (List Char)) (na : String),
      (∀ s ∈ segs, goodSeg s = true) → goodSeg na.data = true →
      ∀ s ∈ segs ++ [na.data], goodSeg s = true := by
    intro segs na hsegs hna s hs
    rcases List.mem_append.1 hs with hs | hs
    · exact hsegs s hs
    · rcases List.mem_singleton.1 hs with rfl
      exact hna
  have H1 : ∀ (pa na : String) (t : NodeType) (sz : Nat) (mt : Int),
      ∀ segs : List (List Char),
      (∀ s ∈ segs, goodSeg s = true) →
      snapshotNodeB (.mk pa na t sz mt none) segs = true →
      diffTraverse (.mk pa na t sz mt none) (absPath segs) = [] := by
    intro pa na t sz mt segs hsegs hsnap
    simp only [snapshotNodeB, Bool.and_eq_true, decide_eq_true_eq] at hsnap
    rcases hsnap with ⟨⟨hna, hpa⟩, _⟩
    cases t with
    | directory => rfl
    | file =>
      show (if pathResolve pa ≠ pathResolve (pathJoin (absPath segs) na) then
          [(⟨OpType.move, pa, pathJoin (absPath segs) na⟩ : FileOperation)]
        else ([] : List FileOperation)) = []
      rw [absPath_join segs na hsegs hna, hpa,
        resolve_absPath_good (segs ++ [na.data]) (hsegs1 segs na hsegs hna)]
      simp
  have H2 : ∀ (pa na : String) (t : NodeType) (sz : Nat) (mt : Int)
      (cs : List FileNode),
      (∀ segs : List (List Char),
        (∀ s ∈ segs, goodSeg s = true) → snapshotListB cs segs = true →
        diffTraverseList cs (absPath segs) = []) →
      ∀ segs : List (List Char),
      (∀ s ∈ segs, goodSeg s = true) →
      snapshotNodeB (.mk pa na t sz mt (some cs)) segs = true →
      diffTraverse (.mk pa na t sz mt (some cs)) (absPath segs) = [] := by
    intro pa na t sz mt cs ih segs hsegs hsnap
    simp only [snapshotNodeB, Bool.and_eq_true, decide_eq_true_eq] at hsnap
    rcases hsnap with ⟨⟨hna, hpa⟩, hcs⟩
    cases t with
    | file =>
      show (if pathResolve pa ≠ pathResolve (pathJoin (absPath segs) na) then
          [(⟨OpType.move, pa, pathJoin (absPath segs) na⟩ : FileOperation)]
        else ([] : List FileOperation)) = []
      rw [absPath_join segs na hsegs hna, hpa,
        resolve_absPath_good (segs ++ [na.data]) (hsegs1 segs na hsegs hna)]
      simp
    | directory =>
      show diffTraverseList cs (pathJoin (absPath segs) na) = []
      rw [absPath_join segs na hsegs hna]
      exact ih (segs ++ [na.data]) (hsegs1 segs na hsegs hna) hcs
  have Hnil : ∀ segs : List (List Char),
      (∀ s ∈ segs, goodSeg s = true) → snapshotListB [] segs = true →
      diffTraverseList [] (absPath segs) = [] := by
    intro segs _ _
    rfl
  have Hcons : ∀ (n : FileNode) (rest : List FileNode),
      (∀ segs : List (List Char),
        (∀ s ∈ segs, goodSeg s = true) → snapshotNodeB n segs = true →
        diffTraverse n (absPath segs) = []) →
      (∀ segs : List (List Char),
        (∀ s ∈ segs, goodSeg s = true) → snapshotListB rest segs = true →
        diffTraverseList rest (absPath segs) = []) →
      ∀ segs : List (List Char),
      (∀ s ∈ segs, goodSeg s = true) → snapshotListB (n :: rest) segs = true →
      diffTraverseList (n :: rest) (absPath segs) = [] := by
    intro n rest ihn ihr segs hsegs hsnap
    simp only [snapshotListB, Bool.and_eq_true] at hsnap
    show diffTraverse n (absPath segs) ++ diffTraverseList rest (absPath segs) = []
    rw [ihn segs hsegs hsnap.1, ihr segs hsegs hsnap.2]
    rfl
  exact ⟨fun n => fileNodeRec H1 H2 Hnil Hcons n, fun l => fileListRec H1 H2 Hnil Hcons l⟩

/-- C1: `calculateDiff` emits exactly the moves the specification
describes — one operation per file node of the proposed tree whose
resolved original path differs from the destination obtained by
extending the original root path with the names of the enclosing
proposed directories and the file's name, resolved/normalized;
directory nodes themselves never produce operations. In particular,
when the proposed tree matches the original layout (every node's path
is its parent context extended by its own name below the scan root),
the operation list is empty. -/
theorem c1_diff_spec (rootPath : String) (root : FileNode) :
    calculateDiff rootPath root = specMoves rootPath root ∧
    (∀ segs0 : List (List Char), (∀ s ∈ segs0, goodSeg s = true) →
      rootPath = absPath segs0 → snapshotRootB root segs0 = true →
      calculateDiff rootPath root = []) := by
  constructor
  · rw [calculateDiff, specMoves]
    cases hch : root.children with
    | none => rfl
    | some cs =>
      exact diffTraverse_spec_pair.2 cs rootPath rootPath [] (fun fname => rfl)
  · intro segs0 hgood hroot hsnap
    rw [calculateDiff]
    cases hch : root.children with
    | none => rfl
    | some cs =>
      rw [snapshotRootB, hch] at hsnap
      rw [hroot]
      exact diffTraverse_snapshot_pair.2 cs segs0 hgood hsnap

/-- Witness for `c1_diff_spec`: for the snapshot `/data` holding
`/data/a.txt` re-derived with no reorganization, the diff is empty,
and it agrees with the specification-side reading. -/
theorem c1_diff_spec_witness :
    calculateDiff "/data"
        (FileNode.mk "/data" "data" .directory 1 0
          (some [FileNode.mk "/data/a.txt" "a.txt" .file 1 5 none])) =
      specMoves "/data"
        (FileNode.mk "/data" "data" .directory 1 0
          (some [FileNode.mk "/data/a.txt" "a.txt" .file 1 5 none])) ∧
    calculateDiff "/data"
        (FileNode.mk "/data" "data" .directory 1 0
          (some [FileNode.mk "/data/a.txt" "a.txt" .file 1 5 none])) = [] := by
  have h := c1_diff_spec "/data"
    (FileNode.mk "/data" "data" .directory 1 0
      (some [FileNode.mk "/data/a.txt" "a.txt" .file 1 5 none]))
  exact ⟨h.1, h.2 [['d', 'a', 't', 'a']] (by decide) (by decide) (by decide)⟩
